import Mathlib

/-!
Verification of the feature-encoding pipeline of the kaggle-spaceship-titanic
repository (src/src/train.js, src/src/prediction.js, and the earlier pipeline
variants in the unnamed sources).

JavaScript numbers are modelled by `JNum`: either a finite value (an exact
rational, standing in for a float64) or one of the non-finite values NaN,
Infinity, -Infinity.  Raw CSV cell values are modelled by `RawValue`.  Rows
(the `xs` objects produced by tf.data.csv) are modelled as total functions
from field names to raw values, with `RawValue.missing` standing for both
null and undefined (absent key).
-/

/-- Model of a JavaScript number: a finite float64 (idealised as an exact
rational) or one of the three non-finite values. -/
inductive JNum where
  | fin (q : ℚ)
  | nan
  | inf
  | ninf
deriving DecidableEq, Repr

namespace JNum

/-- Model of `Number.isFinite` restricted to numbers. -/
def isFin : JNum → Bool
  | fin _ => true
  | _ => false

/-- JavaScript subtraction on numbers (IEEE-754 propagation of non-finite
operands; finite arithmetic idealised as exact). -/
def jsub : JNum → JNum → JNum
  | fin a, fin b => fin (a - b)
  | nan, _ => nan
  | _, nan => nan
  | inf, inf => nan
  | ninf, ninf => nan
  | inf, _ => inf
  | ninf, _ => ninf
  | fin _, inf => ninf
  | fin _, ninf => inf

/-- JavaScript division on numbers (IEEE-754: finite/0 is a signed infinity,
0/0 and inf/inf are NaN; finite arithmetic idealised as exact). -/
def jdiv : JNum → JNum → JNum
  | fin a, fin b =>
      if b = 0 then (if a = 0 then nan else if 0 < a then inf else ninf)
      else fin (a / b)
  | nan, _ => nan
  | _, nan => nan
  | inf, inf => nan
  | inf, ninf => nan
  | ninf, inf => nan
  | ninf, ninf => nan
  | inf, fin b => if 0 ≤ b then inf else ninf
  | ninf, fin b => if 0 ≤ b then ninf else inf
  | fin _, inf => fin 0
  | fin _, ninf => fin 0

end JNum

/-- Model of a raw CSV cell value as seen by the JS code: a number, a string,
or null/undefined (`missing`). -/
inductive RawValue where
  | num (x : JNum)
  | str (s : String)
  | bool (b : Bool)
  | missing
deriving DecidableEq, Repr

/-- Model of `typeof v === 'number' && Number.isFinite(v)`. -/
def isFiniteNum : RawValue → Bool
  | .num (.fin _) => true
  | _ => false

/-- The finite rational carried by a finite numeric raw value. -/
def finitePart : RawValue → Option ℚ
  | .num (.fin q) => some q
  | _ => none

/-- Model of JavaScript `String(v)` for the values that can reach the
string-coercion sites (numbers print as their decimal form, the exact JS
digit string being irrelevant to the properties proved here). -/
def jsString : RawValue → String
  | .num (.fin q) => toString q
  | .num .nan => "NaN"
  | .num .inf => "Infinity"
  | .num .ninf => "-Infinity"
  | .str s => s
  | .bool true => "true"
  | .bool false => "false"
  | .missing => "__MISSING__"

/-- The missing-value normalisation used in both the vocabulary pass and the
one-hot loops (train.js lines 116-117, 220-221; prediction.js lines 58-60):
null/undefined/empty string become the sentinel, everything else is
stringified. -/
def normalizeTok (v : RawValue) : String :=
  if v = .missing ∨ v = .str "" then "__MISSING__" else jsString v

/-- A row of the CSV as handed to the JS callbacks: a total map from field
name to raw value (absent fields read as `missing`, like JS `undefined`). -/
def Row : Type := String → RawValue

/-- Model of the token → index map `indexByFeature[name]` built by
`vocab.forEach((tok, idx) => map[tok] = idx)` (train.js lines 146-148,
prediction.js lines 22-27): for a duplicated token the last write wins, so
this returns the index of the last occurrence, `none` when absent. -/
def tokenIndex : List String → String → Option ℕ
  | [], _ => none
  | t :: ts, tok =>
      match tokenIndex ts tok with
      | some j => some (j + 1)
      | none => if t = tok then some 0 else none

/-- First-match association-list lookup, modelling JS plain-object access
`obj[key]` for string-keyed objects built by insertion. -/
def lookupAssoc {α : Type} : List (String × α) → String → Option α
  | [], _ => none
  | p :: ps, k => if p.1 = k then some p.2 else lookupAssoc ps k

/-- The preprocessing artifact assembled at the end of training
(train.js lines 252-261) and loaded back at inference
(prediction.js lines 10-19).  JS objects keyed by feature name are modelled
as association lists in insertion order. -/
structure Artifact where
  featureNames : List String
  numericIndices : List ℕ
  stringIndices : List ℕ
  numericMeans : List ℚ
  numericStds : List ℚ
  vocabByFeature : List (String × List String)
  oneHotOffsets : List (String × (ℕ × ℕ))
  totalDim : ℕ
deriving DecidableEq, Repr

namespace Artifact

/-- Field access `featureNames[i]` (JS out-of-range access yields undefined; the default
is never reached for the well-formed artifacts the claims quantify over). -/
def featName (A : Artifact) (i : ℕ) : String := A.featureNames.getD i ""

/-- Lookup `vocabByFeature[name]`, defaulting to the empty vocabulary. -/
def vocabOf (A : Artifact) (name : String) : List String :=
  (lookupAssoc A.vocabByFeature name).getD []

end Artifact

/-- The value the training row map stores in the numeric slot `pos`
(train.js lines 193-198): mean imputation followed by standardisation,
with the `std > 0 ? std : 1` guard, computed in JS float arithmetic. -/
def trainSlotVal (A : Artifact) (xs : Row) (pos colIdx : ℕ) : JNum :=
  let name := A.featName colIdx
  let v := xs name
  let imputed : JNum :=
    match finitePart v with
    | some q => .fin q
    | none => .fin (A.numericMeans.getD pos 0)
  let std0 := A.numericStds.getD pos 0
  let std : ℚ := if 0 < std0 then std0 else 1
  JNum.jdiv (JNum.jsub imputed (.fin (A.numericMeans.getD pos 0))) (.fin std)

/-- The value the inference `encodeRow` stores in the numeric slot `pos`
(prediction.js lines 47-51): mean imputation only, no standardisation. -/
def predSlotVal (A : Artifact) (xs : Row) (pos colIdx : ℕ) : JNum :=
  let name := A.featName colIdx
  let v := xs name
  match finitePart v with
  | some q => .fin q
  | none => .fin (A.numericMeans.getD pos 0)

/-- The numeric pass of the training row map:
`numericIndices.forEach((colIdx, pos) => { ... vec[pos] = ... })`
(train.js lines 193-199), carrying the positional index explicitly. -/
def numericPassTrain (A : Artifact) (xs : Row) : ℕ → List ℕ → List JNum → List JNum
  | _, [], vec => vec
  | pos, colIdx :: rest, vec =>
      numericPassTrain A xs (pos + 1) rest (vec.set pos (trainSlotVal A xs pos colIdx))

/-- The numeric pass of the inference `encodeRow`
(prediction.js lines 47-51). -/
def numericPassPred (A : Artifact) (xs : Row) : ℕ → List ℕ → List JNum → List JNum
  | _, [], vec => vec
  | pos, colIdx :: rest, vec =>
      numericPassPred A xs (pos + 1) rest (vec.set pos (predSlotVal A xs pos colIdx))

/-- The position written by the one-hot step for string feature index `i`,
shared verbatim by the training row map (train.js lines 216-224) and the
inference `encodeRow` (prediction.js lines 54-64): resolve the token through
the feature's index map, fall back to the sentinel index, and write only when
the resolved index lies within the block.  Absent offset or vocabulary
entries produce no write (prediction.js guards these explicitly; train.js
would throw, which is unreachable for the artifacts it builds itself). -/
def oneHotWritePos (A : Artifact) (xs : Row) (i : ℕ) : Option ℕ :=
  let name := A.featName i
  match lookupAssoc A.oneHotOffsets name with
  | none => none
  | some (offset, size) =>
      match lookupAssoc A.vocabByFeature name with
      | none => none
      | some vocab =>
          let tok := normalizeTok (xs name)
          match (tokenIndex vocab tok).orElse (fun _ => tokenIndex vocab "__MISSING__") with
          | some idx => if idx < size then some (offset + idx) else none
          | none => none

/-- The one-hot pass over all string features, shared by the training row
map (train.js lines 216-224) and the inference `encodeRow`
(prediction.js lines 54-64). -/
def oneHotPass (A : Artifact) (xs : Row) (vec : List JNum) : List JNum :=
  A.stringIndices.foldl
    (fun v i =>
      match oneHotWritePos A xs i with
      | some p => v.set p (.fin 1)
      | none => v)
    vec

/-- The full training-batch row encoder (train.js lines 189-227): a
zero-filled vector of length `totalDim`, the standardising numeric pass,
then the one-hot pass. -/
def encodeRowTrain (A : Artifact) (xs : Row) : List JNum :=
  oneHotPass A xs
    (numericPassTrain A xs 0 A.numericIndices (List.replicate A.totalDim (.fin 0)))

/-- The inference row encoder `encodeRow` (prediction.js lines 43-67): a
zero-filled vector of length `totalDim`, the impute-only numeric pass, then
the one-hot pass. -/
def encodeRow (A : Artifact) (xs : Row) : List JNum :=
  oneHotPass A xs
    (numericPassPred A xs 0 A.numericIndices (List.replicate A.totalDim (.fin 0)))

/-- The lenient label encoder (train.js lines 179-182). -/
def encodeLabel (v : RawValue) : ℕ :=
  if v = .bool true ∨ v = .str "True" ∨ v = .str "true" ∨ v = .num (.fin 1) then 1 else 0

/-- The strict label encoder of the earlier pipeline variant
(src/unnamed/part_001 lines 40-45): recognised truthy forms map to 1,
recognised falsy forms map to 0, everything else yields NaN. -/
def encodeLabelStrict (v : RawValue) : JNum :=
  if v = .bool true ∨ v = .str "True" ∨ v = .str "true" ∨ v = .num (.fin 1) then .fin 1
  else if v = .bool false ∨ v = .str "False" ∨ v = .str "false" ∨ v = .num (.fin 0) then .fin 0
  else .nan

/-! ### The statistics pass (train.js lines 59-82) -/

/-- One row's contribution to the running sufficient statistics:
`numericIndices.forEach((colIdx, pos) => { if finite { sums[pos] += v; sumSquares[pos] += v*v; counts[pos] += 1 } })`
(train.js lines 64-74), carrying the positional index explicitly. -/
def statsRowUpdate (featureNames : List String) (xs : Row) :
    ℕ → List ℕ → List ℚ × List ℚ × List ℕ → List ℚ × List ℚ × List ℕ
  | _, [], acc => acc
  | pos, colIdx :: rest, (sums, sumsq, counts) =>
      let v := xs (featureNames.getD colIdx "")
      let acc' : List ℚ × List ℚ × List ℕ :=
        match finitePart v with
        | some q =>
            (sums.set pos (sums.getD pos 0 + q),
             sumsq.set pos (sumsq.getD pos 0 + q * q),
             counts.set pos (counts.getD pos 0 + 1))
        | none => (sums, sumsq, counts)
      statsRowUpdate featureNames xs (pos + 1) rest acc'

/-- The single streaming statistics pass over all rows
(train.js lines 59-74): zero-initialised parallel arrays `sums`,
`sumSquares`, `counts`, updated row by row. -/
def statsPass (featureNames : List String) (numericIndices : List ℕ)
    (rows : List Row) : List ℚ × List ℚ × List ℕ :=
  rows.foldl (fun acc xs => statsRowUpdate featureNames xs 0 numericIndices acc)
    (List.replicate numericIndices.length 0,
     List.replicate numericIndices.length 0,
     List.replicate numericIndices.length 0)

/-- The means `numericMeans = sums.map((s, i) => counts[i] > 0 ? s / counts[i] : 0)`
(train.js line 76). -/
def numericMeansOf (featureNames : List String) (numericIndices : List ℕ)
    (rows : List Row) : List ℚ :=
  let stats := statsPass featureNames numericIndices rows
  stats.1.enum.map (fun p =>
    if 0 < stats.2.2.getD p.1 0 then p.2 / (stats.2.2.getD p.1 0 : ℚ) else 0)

/-- The variance clamp value `1e-12` of train.js line 81. -/
def varEps : ℚ := 1 / 1000000000000

/-- The standard deviations `numericMeans.map((m, i) => counts[i] === 0 ? 1 : sqrt(max(sumSquares[i]/counts[i] - m*m, 1e-12)))`
(train.js lines 77-82).  The square root lives in ℝ, everything before it is
exact rational arithmetic. -/
noncomputable def numericStdsOf (featureNames : List String)
    (numericIndices : List ℕ) (rows : List Row) : List ℝ :=
  let stats := statsPass featureNames numericIndices rows
  (numericMeansOf featureNames numericIndices rows).enum.map (fun p =>
    if stats.2.2.getD p.1 0 = 0 then 1
    else Real.sqrt
      ((max (stats.2.1.getD p.1 0 / (stats.2.2.getD p.1 0 : ℚ) - p.2 * p.2) varEps : ℚ) : ℝ))

/-! ### The vocabulary builder (train.js lines 109-149) -/

/-- JS `Set.prototype.add`: insertion-ordered, duplicates ignored. -/
def setAdd (l : List String) (s : String) : List String :=
  if s ∈ l then l else l ++ [s]

/-- The vocabulary collection pass for one categorical feature
(train.js lines 112-120 projected to a single feature): normalise each raw
value and add it to the feature's set. -/
def collectSet (vals : List RawValue) : List String :=
  vals.foldl (fun acc v => setAdd acc (normalizeTok v)) []

/-- The sentinel insertion `if (!vocabSets[key].has('__MISSING__')) vocabSets[key].add('__MISSING__')`
(train.js line 143). -/
def ensureSentinel (l : List String) : List String := setAdd l "__MISSING__"

/-- The finalisation `Array.from(vocabSets[key]).sort()` preceded by the sentinel insertion
(train.js lines 143-144): the finalised vocabulary of one categorical
feature, as a function of that feature's raw-value column. -/
def buildVocab (vals : List RawValue) : List String :=
  List.insertionSort (· ≤ ·) (ensureSentinel (collectSet vals))

/-! ### The layout planner (train.js lines 169-176) -/

/-- The one-hot width of string feature index `i`:
`vocabByFeature[featureNames[i]].length`. -/
def sizeAt (featureNames : List String) (vocabByFeature : List (String × List String))
    (i : ℕ) : ℕ :=
  ((lookupAssoc vocabByFeature (featureNames.getD i "")).getD []).length

/-- The offset-assignment loop (train.js lines 171-175): starting from the
running dimension `dim`, record `(name, {offset: dim, size})` for each string
feature and advance `dim` by `size`.  Returns the offsets table and the final
`totalDim`. -/
def layoutAux (featureNames : List String) (vocabByFeature : List (String × List String)) :
    List ℕ → ℕ → List (String × (ℕ × ℕ)) × ℕ
  | [], dim => ([], dim)
  | i :: rest, dim =>
      let name := featureNames.getD i ""
      let size := sizeAt featureNames vocabByFeature i
      let tail := layoutAux featureNames vocabByFeature rest (dim + size)
      ((name, (dim, size)) :: tail.1, tail.2)

/-- The full layout plan (train.js lines 169-176): `totalDim` starts at the
numeric feature count and each string feature's block follows contiguously. -/
def buildLayout (featureNames : List String) (numericIndices stringIndices : List ℕ)
    (vocabByFeature : List (String × List String)) : List (String × (ℕ × ℕ)) × ℕ :=
  layoutAux featureNames vocabByFeature stringIndices numericIndices.length

/-- Well-formedness of an artifact, exactly the shape the training pipeline
guarantees for the artifact it assembles: distinct string-feature indices and
names, a vocabulary (duplicate-free, sentinel included) for every string
feature, and the offsets table and total dimension produced by the layout
planner from those vocabularies. -/
def Artifact.WellFormed (A : Artifact) : Prop :=
  A.stringIndices.Nodup ∧
  (A.stringIndices.map A.featName).Nodup ∧
  (∀ i ∈ A.stringIndices,
      lookupAssoc A.vocabByFeature (A.featName i) = some (A.vocabOf (A.featName i)) ∧
      (A.vocabOf (A.featName i)).Nodup ∧
      "__MISSING__" ∈ A.vocabOf (A.featName i)) ∧
  A.oneHotOffsets =
    (buildLayout A.featureNames A.numericIndices A.stringIndices A.vocabByFeature).1 ∧
  A.totalDim =
    (buildLayout A.featureNames A.numericIndices A.stringIndices A.vocabByFeature).2

instance (A : Artifact) : Decidable A.WellFormed := by
  unfold Artifact.WellFormed
  infer_instance

/-! ### Dimension-mismatch handling at inference (prediction.js lines 30-34, 87-100) -/

/-- The check `if (modelInputDim !== totalDim) console.warn(...)` (prediction.js
lines 32-34): true exactly when the warning is logged. -/
def dimMismatchWarn (totalDim modelInputDim : ℕ) : Bool :=
  modelInputDim ≠ totalDim

/-- The shape adjustment of the collected feature matrix (prediction.js
lines 90-100): on mismatch, slice off trailing columns when the artifact
dimension is larger, zero-pad on the right when it is smaller. -/
def adjustFeatures (totalDim modelInputDim : ℕ) (rows : List (List JNum)) :
    List (List JNum) :=
  if modelInputDim ≠ totalDim then
    if modelInputDim < totalDim then rows.map (fun r => r.take modelInputDim)
    else rows.map (fun r => r ++ List.replicate (modelInputDim - totalDim) (.fin 0))
  else rows

/-- The whole mismatch path as executed by prediction.js: the warning flag
(line 32) together with the adjusted matrix (lines 90-100). -/
def runDimAdjust (totalDim modelInputDim : ℕ) (rows : List (List JNum)) :
    Bool × List (List JNum) :=
  (dimMismatchWarn totalDim modelInputDim, adjustFeatures totalDim modelInputDim rows)

/-! ### Artifact persistence (train.js lines 250-263, prediction.js lines 10-19)

`JSON.stringify` / `JSON.parse` are modelled on the level of the JSON value
tree: saving maps the artifact to a tree of nulls, numbers, strings, arrays
and insertion-ordered objects, loading parses that tree back into the
structured record.  JSON numbers are exact decimals, modelled as rationals. -/

/-- A JSON value. -/
inductive Json where
  | null
  | bool (b : Bool)
  | num (q : ℚ)
  | str (s : String)
  | arr (elems : List Json)
  | obj (fields : List (String × Json))

/-- Object-field lookup, modelling the destructuring reads of
prediction.js lines 11-19. -/
def jsonLookup (fields : List (String × Json)) (k : String) : Option Json :=
  lookupAssoc fields k

/-- Decode a JSON number as a natural (an index or a dimension). -/
def natOfJson : Json → Option ℕ
  | .num q => if q.den = 1 ∧ 0 ≤ q.num then some q.num.toNat else none
  | _ => none

/-- Decode a JSON number as a rational (a float64 statistic). -/
def ratOfJson : Json → Option ℚ
  | .num q => some q
  | _ => none

/-- Decode a JSON string. -/
def strOfJson : Json → Option String
  | .str s => some s
  | _ => none

/-- Decode a JSON array element-wise, failing if any element fails. -/
def listOfJson {α : Type} (g : Json → Option α) : List Json → Option (List α)
  | [] => some []
  | j :: js =>
      match g j, listOfJson g js with
      | some a, some as => some (a :: as)
      | _, _ => none

/-- Decode a JSON value expected to be an array. -/
def arrOfJson {α : Type} (g : Json → Option α) : Json → Option (List α)
  | .arr js => listOfJson g js
  | _ => none

/-- Encode `vocabByFeature` (a string-keyed object of string arrays). -/
def vocabToJson (v : List (String × List String)) : Json :=
  .obj (v.map (fun p => (p.1, .arr (p.2.map .str))))

/-- Decode `vocabByFeature`. -/
def vocabFieldsOfJson : List (String × Json) → Option (List (String × List String))
  | [] => some []
  | p :: ps =>
      match arrOfJson strOfJson p.2, vocabFieldsOfJson ps with
      | some v, some rest => some ((p.1, v) :: rest)
      | _, _ => none

/-- Decode a JSON value expected to be the `vocabByFeature` object. -/
def vocabOfJson : Json → Option (List (String × List String))
  | .obj fs => vocabFieldsOfJson fs
  | _ => none

/-- Encode `oneHotOffsets` (a string-keyed object of `{offset, size}`
records, train.js line 173). -/
def offsetsToJson (o : List (String × (ℕ × ℕ))) : Json :=
  .obj (o.map (fun p =>
    (p.1, .obj [("offset", .num (p.2.1 : ℚ)), ("size", .num (p.2.2 : ℚ))])))

/-- Decode one `{offset, size}` record. -/
def offsetEntryOfJson : Json → Option (ℕ × ℕ)
  | .obj fs =>
      match jsonLookup fs "offset", jsonLookup fs "size" with
      | some jo, some js =>
          match natOfJson jo, natOfJson js with
          | some o, some s => some (o, s)
          | _, _ => none
      | _, _ => none
  | _ => none

/-- Decode `oneHotOffsets`. -/
def offsetFieldsOfJson : List (String × Json) → Option (List (String × (ℕ × ℕ)))
  | [] => some []
  | p :: ps =>
      match offsetEntryOfJson p.2, offsetFieldsOfJson ps with
      | some e, some rest => some ((p.1, e) :: rest)
      | _, _ => none

/-- Decode a JSON value expected to be the `oneHotOffsets` object. -/
def offsetsOfJson : Json → Option (List (String × (ℕ × ℕ)))
  | .obj fs => offsetFieldsOfJson fs
  | _ => none

/-- Saving: `JSON.stringify(artifacts)` on the value-tree level (train.js
lines 252-262): the artifact object with its eight fields in insertion
order. -/
def artifactToJson (A : Artifact) : Json :=
  .obj
    [("featureNames", .arr (A.featureNames.map .str)),
     ("numericIndices", .arr (A.numericIndices.map (fun (k : ℕ) => Json.num (k : ℚ)))),
     ("stringIndices", .arr (A.stringIndices.map (fun (k : ℕ) => Json.num (k : ℚ)))),
     ("numericMeans", .arr (A.numericMeans.map .num)),
     ("numericStds", .arr (A.numericStds.map .num)),
     ("vocabByFeature", vocabToJson A.vocabByFeature),
     ("oneHotOffsets", offsetsToJson A.oneHotOffsets),
     ("totalDim", .num (A.totalDim : ℚ))]

/-- Loading: `JSON.parse` of the persisted artifact followed by the field reads of
prediction.js lines 10-19 (plus `numericStds`, which the file carries even
though prediction.js does not destructure it). -/
def artifactOfJson : Json → Option Artifact
  | .obj fs =>
      match jsonLookup fs "featureNames", jsonLookup fs "numericIndices",
            jsonLookup fs "stringIndices", jsonLookup fs "numericMeans",
            jsonLookup fs "numericStds", jsonLookup fs "vocabByFeature",
            jsonLookup fs "oneHotOffsets", jsonLookup fs "totalDim" with
      | some j1, some j2, some j3, some j4, some j5, some j6, some j7, some j8 =>
          match arrOfJson strOfJson j1, arrOfJson natOfJson j2,
                arrOfJson natOfJson j3, arrOfJson ratOfJson j4,
                arrOfJson ratOfJson j5, vocabOfJson j6,
                offsetsOfJson j7, natOfJson j8 with
          | some fn, some ni, some si, some nm, some ns, some vb, some oh, some td =>
              some ⟨fn, ni, si, nm, ns, vb, oh, td⟩
          | _, _, _, _, _, _, _, _ => none
      | _, _, _, _, _, _, _, _ => none
  | _ => none

/-- The block width of the `k`-th string feature in the layout order. -/
def blockSizeAt (A : Artifact) (k : ℕ) : ℕ :=
  sizeAt A.featureNames A.vocabByFeature (A.stringIndices.getD k 0)

/-- The block offset of the `k`-th string feature in the layout order:
the numeric count plus the widths of all earlier blocks. -/
def blockOffsetAt (A : Artifact) (k : ℕ) : ℕ :=
  A.numericIndices.length +
    ((A.stringIndices.take k).map (sizeAt A.featureNames A.vocabByFeature)).sum

/-! ### Concrete fixtures used by the closed witness and counterexample
theorems below -/

/-- A one-numeric-column artifact as training produces it from the column
values {-2, 2}: mean 0, std 2 (used for the encoder-divergence input). -/
def exampleArtifactC1 : Artifact :=
  { featureNames := ["x"], numericIndices := [0], stringIndices := [],
    numericMeans := [0], numericStds := [2], vocabByFeature := [],
    oneHotOffsets := [], totalDim := 1 }

/-- The column the statistics pass turns into mean 0, std 2. -/
def exampleRowsC1 : List Row :=
  [fun _ => .num (.fin (-2)), fun _ => .num (.fin 2)]

/-- A record with x = 1. -/
def exampleRowC1 : Row := fun _ => .num (.fin 1)

/-- A one-numeric-column artifact as training produces it from a fully
missing column: count 0, mean 0, std 1. -/
def exampleArtifactC2 : Artifact :=
  { featureNames := ["x"], numericIndices := [0], stringIndices := [],
    numericMeans := [0], numericStds := [1], vocabByFeature := [],
    oneHotOffsets := [], totalDim := 1 }

/-- A column with no finite observation. -/
def exampleRowsC2 : List Row := [fun _ => .missing]

/-- A record with the finite value x = 5. -/
def exampleRowC2 : Row := fun _ => .num (.fin 5)

/-- A record with every field missing. -/
def exampleRowMissing : Row := fun _ => .missing

/-- A two-feature artifact (one numeric, one categorical) with the layout
the training pipeline would build. -/
def exampleArtifact : Artifact :=
  { featureNames := ["Age", "HomePlanet"], numericIndices := [0], stringIndices := [1],
    numericMeans := [30], numericStds := [2],
    vocabByFeature := [("HomePlanet", ["Earth", "Mars", "__MISSING__"])],
    oneHotOffsets := [("HomePlanet", (1, 3))], totalDim := 4 }

/-- A record with Age 5 and HomePlanet Mars. -/
def exampleRow : Row := fun n =>
  if n = "Age" then .num (.fin 5)
  else if n = "HomePlanet" then .str "Mars" else .missing

/-- The single-feature column {0, 2}: its variance is exactly 1, so its
standard deviation is exactly 1 even though count = 2. -/
def exampleRowsC4 : List Row := [fun _ => .num (.fin 0), fun _ => .num (.fin 2)]

/-- A raw-value column for the vocabulary determinism witness. -/
def exampleValsC5 : List RawValue := [.str "NYC", .missing, .str "LA"]

/-- A permutation of `exampleValsC5`. -/
def exampleValsC5p : List RawValue := [.missing, .str "LA", .str "NYC"]

/-- A single encoded row of width 3 for the dimension-adjustment witness. -/
def exampleMatrixC9 : List (List JNum) := [[.fin 1, .fin 2, .fin 3]]

/-! ## Helper lemmas -/

theorem getD_set_self {α : Type} (l : List α) (i : ℕ) (a d : α) (h : i < l.length) :
    (l.set i a).getD i d = a := by
  rw [List.getD_eq_getElem _ _ (by simpa using h)]
  simp [List.getElem_set, h]

theorem getD_set_ne {α : Type} (l : List α) {i j : ℕ} (a d : α) (h : i ≠ j) :
    (l.set i a).getD j d = l.getD j d := by
  by_cases hj : j < l.length
  · rw [List.getD_eq_getElem _ _ (by simpa using hj), List.getD_eq_getElem _ _ hj]
    simp [List.getElem_set, h]
  · rw [List.getD_eq_default _ _ (by simpa using Nat.le_of_not_lt hj),
      List.getD_eq_default _ _ (Nat.le_of_not_lt hj)]

theorem getD_replicate {α : Type} {n i : ℕ} (a d : α) (h : i < n) :
    (List.replicate n a).getD i d = a := by
  rw [List.getD_eq_getElem _ _ (by simpa using h)]
  simp

theorem tokenIndex_eq_none_iff (l : List String) (tok : String) :
    tokenIndex l tok = none ↔ tok ∉ l := by
  induction l with
  | nil => simp [tokenIndex]
  | cons t ts ih =>
      simp only [tokenIndex, List.mem_cons]
      cases h : tokenIndex ts tok with
      | some j =>
          have hmem : tok ∈ ts := by
            by_contra hn
            rw [ih.mpr hn] at h
            cases h
          simp [hmem]
      | none =>
          have hmem : tok ∉ ts := ih.mp h
          by_cases ht : t = tok
          · subst ht
            simp [hmem]
          · have : ¬tok = t := fun hh => ht hh.symm
            simp [ht, hmem, this]

theorem tokenIndex_lt_length {l : List String} {tok : String} {j : ℕ}
    (h : tokenIndex l tok = some j) : j < l.length := by
  induction l generalizing j with
  | nil => simp [tokenIndex] at h
  | cons t ts ih =>
      simp only [tokenIndex] at h
      cases h' : tokenIndex ts tok with
      | some i =>
          rw [h'] at h
          cases h
          exact Nat.succ_lt_succ (ih h')
      | none =>
          rw [h'] at h
          by_cases ht : t = tok
          · rw [if_pos ht] at h
            cases h
            simp
          · rw [if_neg ht] at h
            cases h

theorem tokenIndex_get_self {l : List String} (hnd : l.Nodup) (i : ℕ) (h : i < l.length) :
    tokenIndex l (l.get ⟨i, h⟩) = some i := by
  induction l generalizing i with
  | nil => simp at h
  | cons t ts ih =>
      rcases List.nodup_cons.mp hnd with ⟨hni, hnd'⟩
      match i with
      | 0 =>
          have hmem : t ∉ ts := by simpa using hni
          simp only [List.get, tokenIndex]
          have : tokenIndex ts t = none := (tokenIndex_eq_none_iff ts t).mpr hmem
          simp [this]
      | i + 1 =>
          have h' : i < ts.length := Nat.lt_of_succ_lt_succ h
          simp only [List.get, tokenIndex]
          rw [ih hnd' i h']

theorem tokenIndex_mem_isSome {l : List String} {tok : String} (h : tok ∈ l) :
    ∃ j, tokenIndex l tok = some j := by
  cases hj : tokenIndex l tok with
  | none => exact absurd ((tokenIndex_eq_none_iff l tok).mp hj) (not_not.mpr h)
  | some j => exact ⟨j, rfl⟩

theorem lookupAssoc_keys_nodup_getD {α : Type} [Inhabited α] (l : List (String × α))
    (hnd : (l.map Prod.fst).Nodup) (k : ℕ) (hk : k < l.length) :
    lookupAssoc l (l.getD k default).1 = some (l.getD k default).2 := by
  induction l generalizing k with
  | nil => simp at hk
  | cons p ps ih =>
      simp only [List.map_cons, List.nodup_cons] at hnd
      match k with
      | 0 => simp [lookupAssoc, List.getD_cons_zero]
      | k + 1 =>
          have hk' : k < ps.length := Nat.lt_of_succ_lt_succ hk
          rw [List.getD_cons_succ]
          have hmem : ps.getD k default ∈ ps := by
            rw [List.getD_eq_getElem _ _ hk']
            exact List.getElem_mem hk'
          have hne : p.1 ≠ (ps.getD k default).1 := fun hEq =>
            hnd.1 (hEq ▸ List.mem_map_of_mem Prod.fst hmem)
          simp only [lookupAssoc, if_neg hne]
          exact ih hnd.2 k hk'

theorem numericPassTrain_length (A : Artifact) (xs : Row) :
    ∀ (l : List ℕ) (pos : ℕ) (vec : List JNum),
      (numericPassTrain A xs pos l vec).length = vec.length
  | [], _, _ => rfl
  | _ :: rest, pos, vec => by
      rw [numericPassTrain, numericPassTrain_length A xs rest (pos + 1), List.length_set]

theorem numericPassTrain_getD_untouched (A : Artifact) (xs : Row) :
    ∀ (l : List ℕ) (pos : ℕ) (vec : List JNum) (q : ℕ) (d : JNum),
      q < pos ∨ pos + l.length ≤ q →
      (numericPassTrain A xs pos l vec).getD q d = vec.getD q d
  | [], _, _, _, _, _ => rfl
  | _ :: rest, pos, vec, q, d, hq => by
      rw [numericPassTrain]
      rw [numericPassTrain_getD_untouched A xs rest (pos + 1) _ q d (by
        rcases hq with h | h
        · exact Or.inl (Nat.lt_succ_of_lt h)
        · right; simp only [List.length_cons] at h; omega)]
      refine getD_set_ne _ _ _ ?_
      rcases hq with h | h
      · omega
      · simp only [List.length_cons] at h; omega

theorem numericPassTrain_getD_at (A : Artifact) (xs : Row) :
    ∀ (l : List ℕ) (pos : ℕ) (vec : List JNum) (j : ℕ) (d : JNum),
      j < l.length → pos + j < vec.length →
      (numericPassTrain A xs pos l vec).getD (pos + j) d =
        trainSlotVal A xs (pos + j) (l.getD j 0)
  | [], _, _, j, _, hj, _ => by simp at hj
  | c :: rest, pos, vec, j, d, hj, hlen => by
      rw [numericPassTrain]
      match j with
      | 0 =>
          rw [numericPassTrain_getD_untouched A xs rest (pos + 1) _ (pos + 0) d
            (Or.inl (by omega))]
          simpa using getD_set_self vec pos (trainSlotVal A xs pos c) d (by omega)
      | j + 1 =>
          have : pos + (j + 1) = (pos + 1) + j := by omega
          rw [this]
          rw [numericPassTrain_getD_at A xs rest (pos + 1) _ j d
            (Nat.lt_of_succ_lt_succ hj) (by rw [List.length_set]; omega)]
          simp

theorem numericPassPred_length (A : Artifact) (xs : Row) :
    ∀ (l : List ℕ) (pos : ℕ) (vec : List JNum),
      (numericPassPred A xs pos l vec).length = vec.length
  | [], _, _ => rfl
  | _ :: rest, pos, vec => by
      rw [numericPassPred, numericPassPred_length A xs rest (pos + 1), List.length_set]

theorem numericPassPred_getD_untouched (A : Artifact) (xs : Row) :
    ∀ (l : List ℕ) (pos : ℕ) (vec : List JNum) (q : ℕ) (d : JNum),
      q < pos ∨ pos + l.length ≤ q →
      (numericPassPred A xs pos l vec).getD q d = vec.getD q d
  | [], _, _, _, _, _ => rfl
  | _ :: rest, pos, vec, q, d, hq => by
      rw [numericPassPred]
      rw [numericPassPred_getD_untouched A xs rest (pos + 1) _ q d (by
        rcases hq with h | h
        · exact Or.inl (Nat.lt_succ_of_lt h)
        · right; simp only [List.length_cons] at h; omega)]
      refine getD_set_ne _ _ _ ?_
      rcases hq with h | h
      · omega
      · simp only [List.length_cons] at h; omega

theorem numericPassPred_getD_at (A : Artifact) (xs : Row) :
    ∀ (l : List ℕ) (pos : ℕ) (vec : List JNum) (j : ℕ) (d : JNum),
      j < l.length → pos + j < vec.length →
      (numericPassPred A xs pos l vec).getD (pos + j) d =
        predSlotVal A xs (pos + j) (l.getD j 0)
  | [], _, _, j, _, hj, _ => by simp at hj
  | c :: rest, pos, vec, j, d, hj, hlen => by
      rw [numericPassPred]
      match j with
      | 0 =>
          rw [numericPassPred_getD_untouched A xs rest (pos + 1) _ (pos + 0) d
            (Or.inl (by omega))]
          simpa using getD_set_self vec pos (predSlotVal A xs pos c) d (by omega)
      | j + 1 =>
          have : pos + (j + 1) = (pos + 1) + j := by omega
          rw [this]
          rw [numericPassPred_getD_at A xs rest (pos + 1) _ j d
            (Nat.lt_of_succ_lt_succ hj) (by rw [List.length_set]; omega)]
          simp

theorem oneHotFold_length (A : Artifact) (xs : Row) :
    ∀ (l : List ℕ) (vec : List JNum),
      (l.foldl (fun v i =>
        match oneHotWritePos A xs i with
        | some p => v.set p (.fin 1)
        | none => v) vec).length = vec.length
  | [], _ => rfl
  | i :: rest, vec => by
      rw [List.foldl_cons]
      cases hw : oneHotWritePos A xs i with
      | some p => simp only [hw]; rw [oneHotFold_length A xs rest, List.length_set]
      | none => simp only [hw]; exact oneHotFold_length A xs rest vec

theorem oneHotFold_getD (A : Artifact) (xs : Row) :
    ∀ (l : List ℕ) (vec : List JNum) (q : ℕ) (d : JNum), q < vec.length →
      (l.foldl (fun v i =>
        match oneHotWritePos A xs i with
        | some p => v.set p (.fin 1)
        | none => v) vec).getD q d
      = if ∃ i ∈ l, oneHotWritePos A xs i = some q then .fin 1 else vec.getD q d
  | [], vec, q, d, hq => by simp
  | i :: rest, vec, q, d, hq => by
      rw [List.foldl_cons]
      cases hw : oneHotWritePos A xs i with
      | some p =>
          simp only [hw]
          rw [oneHotFold_getD A xs rest (vec.set p (.fin 1)) q d (by
            rw [List.length_set]; exact hq)]
          by_cases hrest : ∃ i' ∈ rest, oneHotWritePos A xs i' = some q
          · rcases hrest with ⟨i', hi', hwi'⟩
            rw [if_pos ⟨i', hi', hwi'⟩, if_pos ⟨i', List.mem_cons_of_mem i hi', hwi'⟩]
          · rw [if_neg hrest]
            by_cases hpq : p = q
            · subst hpq
              rw [getD_set_self vec p (.fin 1) d hq,
                if_pos ⟨i, List.mem_cons_self i rest, hw⟩]
            · rw [getD_set_ne vec (.fin 1) d hpq, if_neg (by
                rintro ⟨i', hi', hwi'⟩
                rcases List.mem_cons.mp hi' with h | h
                · subst h; rw [hw] at hwi'; exact hpq (Option.some.inj hwi')
                · exact hrest ⟨i', h, hwi'⟩)]
      | none =>
          simp only [hw]
          rw [oneHotFold_getD A xs rest vec q d hq]
          have hiff : (∃ i' ∈ i :: rest, oneHotWritePos A xs i' = some q) ↔
              (∃ i' ∈ rest, oneHotWritePos A xs i' = some q) := by
            constructor
            · rintro ⟨i', hi', hwi'⟩
              rcases List.mem_cons.mp hi' with h | h
              · subst h; rw [hw] at hwi'; cases hwi'
              · exact ⟨i', h, hwi'⟩
            · rintro ⟨i', hi', hwi'⟩
              exact ⟨i', List.mem_cons_of_mem i hi', hwi'⟩
          simp only [hiff]

theorem oneHotPass_length (A : Artifact) (xs : Row) (vec : List JNum) :
    (oneHotPass A xs vec).length = vec.length :=
  oneHotFold_length A xs A.stringIndices vec

theorem oneHotPass_getD (A : Artifact) (xs : Row) (vec : List JNum) (q : ℕ) (d : JNum)
    (hq : q < vec.length) :
    (oneHotPass A xs vec).getD q d
      = if ∃ i ∈ A.stringIndices, oneHotWritePos A xs i = some q then .fin 1
        else vec.getD q d :=
  oneHotFold_getD A xs A.stringIndices vec q d hq

theorem layoutAux_length (fn : List String) (vb : List (String × List String)) :
    ∀ (l : List ℕ) (d : ℕ), (layoutAux fn vb l d).1.length = l.length
  | [], _ => rfl
  | _ :: rest, d => by
      rw [layoutAux]
      simpa using layoutAux_length fn vb rest _

theorem layoutAux_snd (fn : List String) (vb : List (String × List String)) :
    ∀ (l : List ℕ) (d : ℕ),
      (layoutAux fn vb l d).2 = d + (l.map (sizeAt fn vb)).sum
  | [], _ => by simp [layoutAux]
  | i :: rest, d => by
      rw [layoutAux]
      simp only [List.map_cons, List.sum_cons]
      rw [layoutAux_snd fn vb rest (d + sizeAt fn vb i)]
      omega

theorem layoutAux_getD (fn : List String) (vb : List (String × List String)) :
    ∀ (l : List ℕ) (d : ℕ) (k : ℕ), k < l.length →
      (layoutAux fn vb l d).1.getD k default =
        (fn.getD (l.getD k 0) "",
         (d + ((l.take k).map (sizeAt fn vb)).sum, sizeAt fn vb (l.getD k 0)))
  | [], _, k, hk => by simp at hk
  | i :: rest, d, k, hk => by
      rw [layoutAux]
      match k with
      | 0 => simp
      | k + 1 =>
          simp only [List.getD_cons_succ, List.take_succ_cons, List.map_cons, List.sum_cons]
          rw [layoutAux_getD fn vb rest (d + sizeAt fn vb i) k (Nat.lt_of_succ_lt_succ hk)]
          congr 2
          omega

theorem layoutAux_keys (fn : List String) (vb : List (String × List String)) :
    ∀ (l : List ℕ) (d : ℕ),
      (layoutAux fn vb l d).1.map Prod.fst = l.map (fun i => fn.getD i "")
  | [], _ => rfl
  | i :: rest, d => by
      rw [layoutAux]
      simpa using layoutAux_keys fn vb rest (d + sizeAt fn vb i)

theorem sum_take_le (l : List ℕ) (n : ℕ) : (l.take n).sum ≤ l.sum := by
  conv_rhs => rw [← List.take_append_drop n l]
  rw [List.sum_append]
  omega

theorem sum_map_take_succ (f : ℕ → ℕ) (l : List ℕ) (k : ℕ) (hk : k < l.length) :
    ((l.take (k + 1)).map f).sum = ((l.take k).map f).sum + f (l.getD k 0) := by
  rw [List.take_succ, List.map_append, List.sum_append, List.getElem?_eq_getElem hk,
    List.getD_eq_getElem _ _ hk]
  simp

theorem blockOffsetAt_mono (A : Artifact) {k k' : ℕ} (hk : k < A.stringIndices.length)
    (hkk : k < k') :
    blockOffsetAt A k + blockSizeAt A k ≤ blockOffsetAt A k' := by
  unfold blockOffsetAt blockSizeAt
  have h1 : ((A.stringIndices.take (k + 1)).map
      (sizeAt A.featureNames A.vocabByFeature)).sum =
      ((A.stringIndices.take k).map (sizeAt A.featureNames A.vocabByFeature)).sum +
        sizeAt A.featureNames A.vocabByFeature (A.stringIndices.getD k 0) :=
    sum_map_take_succ _ _ k hk
  have h2 : ((A.stringIndices.take (k + 1)).map
      (sizeAt A.featureNames A.vocabByFeature)).sum ≤
      ((A.stringIndices.take k').map (sizeAt A.featureNames A.vocabByFeature)).sum := by
    have := sum_take_le ((A.stringIndices.take k').map
      (sizeAt A.featureNames A.vocabByFeature)) (k + 1)
    rwa [← List.map_take, List.take_take, min_eq_left hkk] at this
  omega

theorem wf_totalDim (A : Artifact) (hwf : A.WellFormed) :
    A.totalDim = A.numericIndices.length +
      (A.stringIndices.map (sizeAt A.featureNames A.vocabByFeature)).sum := by
  rw [hwf.2.2.2.2, buildLayout, layoutAux_snd]

theorem block_le_totalDim (A : Artifact) (hwf : A.WellFormed) {k : ℕ}
    (hk : k < A.stringIndices.length) :
    blockOffsetAt A k + blockSizeAt A k ≤ A.totalDim := by
  rw [wf_totalDim A hwf]
  unfold blockOffsetAt blockSizeAt
  have h1 : ((A.stringIndices.take (k + 1)).map
      (sizeAt A.featureNames A.vocabByFeature)).sum =
      ((A.stringIndices.take k).map (sizeAt A.featureNames A.vocabByFeature)).sum +
        sizeAt A.featureNames A.vocabByFeature (A.stringIndices.getD k 0) :=
    sum_map_take_succ _ _ k hk
  have h2 := sum_take_le (A.stringIndices.map (sizeAt A.featureNames A.vocabByFeature)) (k + 1)
  rw [← List.map_take] at h2
  omega

theorem wf_offsets_lookup (A : Artifact) (hwf : A.WellFormed) (k : ℕ)
    (hk : k < A.stringIndices.length) :
    lookupAssoc A.oneHotOffsets (A.featName (A.stringIndices.getD k 0)) =
      some (blockOffsetAt A k, blockSizeAt A k) := by
  have hoff := hwf.2.2.2.1
  have hkeys : (A.oneHotOffsets.map Prod.fst).Nodup := by
    rw [hoff, buildLayout, layoutAux_keys]
    exact hwf.2.1
  have hlen : k < A.oneHotOffsets.length := by
    rw [hoff, buildLayout, layoutAux_length]
    exact hk
  have hget : A.oneHotOffsets.getD k default =
      (A.featName (A.stringIndices.getD k 0), (blockOffsetAt A k, blockSizeAt A k)) := by
    rw [hoff, buildLayout, layoutAux_getD _ _ _ _ k hk]
    rfl
  have := lookupAssoc_keys_nodup_getD A.oneHotOffsets hkeys k hlen
  rw [hget] at this
  exact this

theorem stringIndices_getD_mem (A : Artifact) {k : ℕ} (hk : k < A.stringIndices.length) :
    A.stringIndices.getD k 0 ∈ A.stringIndices := by
  rw [List.getD_eq_getElem _ _ hk]
  exact List.getElem_mem hk

theorem wf_write_in_block (A : Artifact) (xs : Row) (hwf : A.WellFormed) {k : ℕ}
    (hk : k < A.stringIndices.length) {p : ℕ}
    (hp : oneHotWritePos A xs (A.stringIndices.getD k 0) = some p) :
    blockOffsetAt A k ≤ p ∧ p < blockOffsetAt A k + blockSizeAt A k := by
  rw [oneHotWritePos] at hp
  rw [wf_offsets_lookup A hwf k hk] at hp
  simp only at hp
  cases hv : lookupAssoc A.vocabByFeature (A.featName (A.stringIndices.getD k 0)) with
  | none => rw [hv] at hp; cases hp
  | some vocab =>
      rw [hv] at hp
      simp only at hp
      cases hidx : (tokenIndex vocab (normalizeTok (xs (A.featName (A.stringIndices.getD k 0))))).orElse
          (fun _ => tokenIndex vocab "__MISSING__") with
      | none => rw [hidx] at hp; cases hp
      | some idx =>
          rw [hidx] at hp
          simp only at hp
          by_cases hlt : idx < blockSizeAt A k
          · rw [if_pos hlt] at hp
            cases hp
            omega
          · rw [if_neg hlt] at hp
            cases hp

theorem wf_write_some (A : Artifact) (xs : Row) (hwf : A.WellFormed) {k : ℕ}
    (hk : k < A.stringIndices.length) :
    ∃ idx, idx < blockSizeAt A k ∧
      oneHotWritePos A xs (A.stringIndices.getD k 0) =
        some (blockOffsetAt A k + idx) := by
  have hmem := stringIndices_getD_mem A hk
  obtain ⟨hv, hnd, hsent⟩ := hwf.2.2.1 _ hmem
  have hsize : blockSizeAt A k = (A.vocabOf (A.featName (A.stringIndices.getD k 0))).length := by
    unfold blockSizeAt sizeAt Artifact.vocabOf
    rfl
  rw [oneHotWritePos, wf_offsets_lookup A hwf k hk]
  simp only
  rw [hv]
  simp only
  cases hti : tokenIndex (A.vocabOf (A.featName (A.stringIndices.getD k 0)))
      (normalizeTok (xs (A.featName (A.stringIndices.getD k 0)))) with
  | some j =>
      have hjlt : j < blockSizeAt A k := by rw [hsize]; exact tokenIndex_lt_length hti
      refine ⟨j, hjlt, ?_⟩
      simp [Option.orElse, hjlt]
  | none =>
      obtain ⟨j, hj⟩ := tokenIndex_mem_isSome hsent
      have hjlt : j < blockSizeAt A k := by rw [hsize]; exact tokenIndex_lt_length hj
      refine ⟨j, hjlt, ?_⟩
      simp only [Option.orElse]
      rw [hj]
      simp [hjlt]

theorem oneHot_block (A : Artifact) (xs : Row) (base : List JNum) (hwf : A.WellFormed)
    (hlen : base.length = A.totalDim) {k : ℕ} (hk : k < A.stringIndices.length) :
    ∃ j, j < blockSizeAt A k ∧
      (oneHotPass A xs base).getD (blockOffsetAt A k + j) (.fin 0) = .fin 1 ∧
      ∀ j', j' < blockSizeAt A k → j' ≠ j →
        (oneHotPass A xs base).getD (blockOffsetAt A k + j') (.fin 0) =
          base.getD (blockOffsetAt A k + j') (.fin 0) := by
  obtain ⟨idx, hidx, hwidx⟩ := wf_write_some A xs hwf hk
  have hblock := block_le_totalDim A hwf hk
  refine ⟨idx, hidx, ?_, ?_⟩
  · rw [oneHotPass_getD A xs base _ _ (by omega)]
    rw [if_pos ⟨A.stringIndices.getD k 0, stringIndices_getD_mem A hk, hwidx⟩]
  · intro j' hj' hne
    have hno : ¬∃ i ∈ A.stringIndices,
        oneHotWritePos A xs i = some (blockOffsetAt A k + j') := by
      rintro ⟨i', hi', hw'⟩
      obtain ⟨k', hk', hget⟩ := List.mem_iff_getElem.mp hi'
      have hgetD : A.stringIndices.getD k' 0 = i' := by
        rw [List.getD_eq_getElem _ _ hk']; exact hget
      rw [← hgetD] at hw'
      have hbounds := wf_write_in_block A xs hwf hk' hw'
      by_cases hkk : k' = k
      · subst hkk
        rw [hwidx] at hw'
        have := Option.some.inj hw'
        exact hne (show j' = idx by omega)
      · rcases Nat.lt_or_ge k' k with h | h
        · have hmono := blockOffsetAt_mono A hk' h
          omega
        · have hlt : k < k' := by omega
          have hmono := blockOffsetAt_mono A hk hlt
          omega
    rw [oneHotPass_getD A xs base _ _ (by omega), if_neg hno]

theorem trainBase_length (A : Artifact) (xs : Row) :
    (numericPassTrain A xs 0 A.numericIndices
      (List.replicate A.totalDim (.fin 0))).length = A.totalDim := by
  rw [numericPassTrain_length, List.length_replicate]

theorem predBase_length (A : Artifact) (xs : Row) :
    (numericPassPred A xs 0 A.numericIndices
      (List.replicate A.totalDim (.fin 0))).length = A.totalDim := by
  rw [numericPassPred_length, List.length_replicate]

theorem trainBase_getD_zero (A : Artifact) (xs : Row) (q : ℕ)
    (hq : A.numericIndices.length ≤ q) (hqt : q < A.totalDim) :
    (numericPassTrain A xs 0 A.numericIndices
      (List.replicate A.totalDim (.fin 0))).getD q (.fin 0) = .fin 0 := by
  rw [numericPassTrain_getD_untouched A xs A.numericIndices 0 _ q _ (Or.inr (by omega))]
  exact getD_replicate _ _ hqt

theorem predBase_getD_zero (A : Artifact) (xs : Row) (q : ℕ)
    (hq : A.numericIndices.length ≤ q) (hqt : q < A.totalDim) :
    (numericPassPred A xs 0 A.numericIndices
      (List.replicate A.totalDim (.fin 0))).getD q (.fin 0) = .fin 0 := by
  rw [numericPassPred_getD_untouched A xs A.numericIndices 0 _ q _ (Or.inr (by omega))]
  exact getD_replicate _ _ hqt

theorem encodeRowTrain_length (A : Artifact) (xs : Row) :
    (encodeRowTrain A xs).length = A.totalDim := by
  rw [encodeRowTrain, oneHotPass_length, trainBase_length]

theorem encodeRow_length (A : Artifact) (xs : Row) :
    (encodeRow A xs).length = A.totalDim := by
  rw [encodeRow, oneHotPass_length, predBase_length]

theorem setAdd_nodup {l : List String} {s : String} (h : l.Nodup) : (setAdd l s).Nodup := by
  unfold setAdd
  by_cases hs : s ∈ l
  · rwa [if_pos hs]
  · rw [if_neg hs]
    exact List.Nodup.append h (List.nodup_singleton s) (by simpa using hs)

theorem setAdd_mem_iff {l : List String} {s x : String} :
    x ∈ setAdd l s ↔ x ∈ l ∨ x = s := by
  unfold setAdd
  by_cases hs : s ∈ l
  · rw [if_pos hs]
    constructor
    · exact Or.inl
    · rintro (h | h)
      · exact h
      · exact h ▸ hs
  · rw [if_neg hs]
    simp

theorem collect_go_nodup :
    ∀ (vals : List RawValue) (acc : List String), acc.Nodup →
      (vals.foldl (fun a v => setAdd a (normalizeTok v)) acc).Nodup
  | [], _, h => h
  | v :: vs, acc, h => by
      rw [List.foldl_cons]
      exact collect_go_nodup vs _ (setAdd_nodup h)

theorem collect_go_mem :
    ∀ (vals : List RawValue) (acc : List String) (x : String),
      x ∈ vals.foldl (fun a v => setAdd a (normalizeTok v)) acc ↔
        x ∈ acc ∨ ∃ v ∈ vals, normalizeTok v = x
  | [], acc, x => by simp
  | v :: vs, acc, x => by
      rw [List.foldl_cons, collect_go_mem vs _ x, setAdd_mem_iff]
      constructor
      · rintro ((h | h) | ⟨v', hv', hn⟩)
        · exact Or.inl h
        · exact Or.inr ⟨v, List.mem_cons_self v vs, h.symm⟩
        · exact Or.inr ⟨v', List.mem_cons_of_mem v hv', hn⟩
      · rintro (h | ⟨v', hv', hn⟩)
        · exact Or.inl (Or.inl h)
        · rcases List.mem_cons.mp hv' with h' | h'
          · exact Or.inl (Or.inr (h' ▸ hn.symm))
          · exact Or.inr ⟨v', h', hn⟩

theorem collectSet_nodup (vals : List RawValue) : (collectSet vals).Nodup :=
  collect_go_nodup vals [] List.nodup_nil

theorem collectSet_mem (vals : List RawValue) (x : String) :
    x ∈ collectSet vals ↔ ∃ v ∈ vals, normalizeTok v = x := by
  rw [collectSet, collect_go_mem]
  simp

theorem buildVocab_sorted (vals : List RawValue) :
    (buildVocab vals).Sorted (· ≤ ·) :=
  List.sorted_insertionSort _ _

theorem buildVocab_perm (vals : List RawValue) :
    List.Perm (buildVocab vals) (ensureSentinel (collectSet vals)) :=
  List.perm_insertionSort _ _

theorem buildVocab_nodup (vals : List RawValue) : (buildVocab vals).Nodup :=
  ((buildVocab_perm vals).nodup_iff).mpr (setAdd_nodup (collectSet_nodup vals))

theorem buildVocab_mem (vals : List RawValue) (x : String) :
    x ∈ buildVocab vals ↔ x = "__MISSING__" ∨ ∃ v ∈ vals, normalizeTok v = x := by
  rw [(buildVocab_perm vals).mem_iff, ensureSentinel, setAdd_mem_iff, collectSet_mem]
  exact Or.comm

theorem buildVocab_eq_of_perm {vals vals' : List RawValue} (h : List.Perm vals vals') :
    buildVocab vals = buildVocab vals' := by
  refine List.eq_of_perm_of_sorted ?_ (buildVocab_sorted vals) (buildVocab_sorted vals')
  refine List.perm_of_nodup_nodup_toFinset_eq (buildVocab_nodup vals)
    (buildVocab_nodup vals') ?_
  ext x
  rw [List.mem_toFinset, List.mem_toFinset, buildVocab_mem, buildVocab_mem]
  constructor
  · rintro (hx | ⟨v, hv, hn⟩)
    · exact Or.inl hx
    · exact Or.inr ⟨v, h.mem_iff.mp hv, hn⟩
  · rintro (hx | ⟨v, hv, hn⟩)
    · exact Or.inl hx
    · exact Or.inr ⟨v, h.mem_iff.mpr hv, hn⟩

theorem isFiniteNum_eq_isSome (v : RawValue) : isFiniteNum v = (finitePart v).isSome := by
  cases v with
  | num x => cases x <;> rfl
  | str s => rfl
  | bool b => rfl
  | missing => rfl

theorem statsRowUpdate_lengths (fn : List String) (xs : Row) :
    ∀ (l : List ℕ) (pos : ℕ) (acc : List ℚ × List ℚ × List ℕ),
      (statsRowUpdate fn xs pos l acc).1.length = acc.1.length ∧
      (statsRowUpdate fn xs pos l acc).2.1.length = acc.2.1.length ∧
      (statsRowUpdate fn xs pos l acc).2.2.length = acc.2.2.length
  | [], _, ⟨_, _, _⟩ => ⟨rfl, rfl, rfl⟩
  | colIdx :: rest, pos, ⟨s, s2, c⟩ => by
      rw [statsRowUpdate]
      cases hfp : finitePart (xs (fn.getD colIdx "")) with
      | some q =>
          simp only [hfp]
          have ih := statsRowUpdate_lengths fn xs rest (pos + 1)
            (s.set pos (s.getD pos 0 + q), s2.set pos (s2.getD pos 0 + q * q),
             c.set pos (c.getD pos 0 + 1))
          simpa using ih
      | none =>
          simp only [hfp]
          exact statsRowUpdate_lengths fn xs rest (pos + 1) (s, s2, c)

theorem statsRowUpdate_getD_untouched (fn : List String) (xs : Row) :
    ∀ (l : List ℕ) (pos : ℕ) (acc : List ℚ × List ℚ × List ℕ) (q : ℕ),
      q < pos ∨ pos + l.length ≤ q →
      (statsRowUpdate fn xs pos l acc).1.getD q 0 = acc.1.getD q 0 ∧
      (statsRowUpdate fn xs pos l acc).2.1.getD q 0 = acc.2.1.getD q 0 ∧
      (statsRowUpdate fn xs pos l acc).2.2.getD q 0 = acc.2.2.getD q 0
  | [], _, ⟨_, _, _⟩, _, _ => ⟨rfl, rfl, rfl⟩
  | colIdx :: rest, pos, ⟨s, s2, c⟩, q, hq => by
      have hq' : q < pos + 1 ∨ (pos + 1) + rest.length ≤ q := by
        rcases hq with h | h
        · exact Or.inl (Nat.lt_succ_of_lt h)
        · right; simp only [List.length_cons] at h; omega
      have hne : pos ≠ q := by rcases hq with h | h
                               · omega
                               · simp only [List.length_cons] at h; omega
      rw [statsRowUpdate]
      cases hfp : finitePart (xs (fn.getD colIdx "")) with
      | some qv =>
          simp only [hfp]
          have ih := statsRowUpdate_getD_untouched fn xs rest (pos + 1)
            (s.set pos (s.getD pos 0 + qv), s2.set pos (s2.getD pos 0 + qv * qv),
             c.set pos (c.getD pos 0 + 1)) q hq'
          refine ⟨?_, ?_, ?_⟩
      
          · rw [ih.1]; exact getD_set_ne _ _ _ hne
          · rw [ih.2.1]; exact getD_set_ne _ _ _ hne
          · rw [ih.2.2]; exact getD_set_ne _ _ _ hne
      | none =>
          simp only [hfp]
          exact statsRowUpdate_getD_untouched fn xs rest (pos + 1) (s, s2, c) q hq'

theorem statsRowUpdate_getD_at (fn : List String) (xs : Row) :
    ∀ (l : List ℕ) (pos : ℕ) (acc : List ℚ × List ℚ × List ℕ) (j : ℕ),
      j < l.length → pos + j < acc.1.length → pos + j < acc.2.1.length →
      pos + j < acc.2.2.length →
      (statsRowUpdate fn xs pos l acc).1.getD (pos + j) 0 =
        acc.1.getD (pos + j) 0 + (finitePart (xs (fn.getD (l.getD j 0) ""))).getD 0 ∧
      (statsRowUpdate fn xs pos l acc).2.1.getD (pos + j) 0 =
        acc.2.1.getD (pos + j) 0 +
          (finitePart (xs (fn.getD (l.getD j 0) ""))).getD 0 *
            (finitePart (xs (fn.getD (l.getD j 0) ""))).getD 0 ∧
      (statsRowUpdate fn xs pos l acc).2.2.getD (pos + j) 0 =
        acc.2.2.getD (pos + j) 0 +
          (if (finitePart (xs (fn.getD (l.getD j 0) ""))).isSome then 1 else 0)
  | [], _, ⟨_, _, _⟩, j, hj, _, _, _ => by simp at hj
  | colIdx :: rest, pos, ⟨s, s2, c⟩, j, hj, h1, h2, h3 => by
      have h1' : pos + j < s.length := h1
      have h2' : pos + j < s2.length := h2
      have h3' : pos + j < c.length := h3
      cases hfp : finitePart (xs (fn.getD colIdx "")) with
      | some qv =>
          rw [statsRowUpdate]
          simp only [hfp]
          match j with
          | 0 =>
              simp only [List.getD_cons_zero, hfp]
              have ih := statsRowUpdate_getD_untouched fn xs rest (pos + 1)
                (s.set pos (s.getD pos 0 + qv), s2.set pos (s2.getD pos 0 + qv * qv),
                 c.set pos (c.getD pos 0 + 1)) (pos + 0) (Or.inl (by omega))
              refine ⟨?_, ?_, ?_⟩
              · rw [ih.1]
                simpa using getD_set_self s pos _ 0 (by omega)
              · rw [ih.2.1]
                simpa using getD_set_self s2 pos _ 0 (by omega)
              · rw [ih.2.2]
                simpa using getD_set_self c pos _ 0 (by omega)
          | j + 1 =>
              have heq : pos + (j + 1) = (pos + 1) + j := by omega
              simp only [List.getD_cons_succ]
              rw [heq]
              have ih := statsRowUpdate_getD_at fn xs rest (pos + 1)
                (s.set pos (s.getD pos 0 + qv), s2.set pos (s2.getD pos 0 + qv * qv),
                 c.set pos (c.getD pos 0 + 1)) j (Nat.lt_of_succ_lt_succ hj)
                (by simp only [List.length_set]; omega)
                (by simp only [List.length_set]; omega)
                (by simp only [List.length_set]; omega)
              have hne : pos ≠ (pos + 1) + j := by omega
              refine ⟨?_, ?_, ?_⟩
              · rw [ih.1, getD_set_ne _ _ _ hne]
              · rw [ih.2.1, getD_set_ne _ _ _ hne]
              · rw [ih.2.2, getD_set_ne _ _ _ hne]
      | none =>
          rw [statsRowUpdate]
          simp only [hfp]
          match j with
          | 0 =>
              simp only [List.getD_cons_zero, hfp]
              have ih := statsRowUpdate_getD_untouched fn xs rest (pos + 1)
                (s, s2, c) (pos + 0) (Or.inl (by omega))
              refine ⟨?_, ?_, ?_⟩
              · rw [ih.1]; simp
              · rw [ih.2.1]; simp
              · rw [ih.2.2]; simp
          | j + 1 =>
              have heq : pos + (j + 1) = (pos + 1) + j := by omega
              simp only [List.getD_cons_succ]
              rw [heq]
              exact statsRowUpdate_getD_at fn xs rest (pos + 1) (s, s2, c) j
                (Nat.lt_of_succ_lt_succ hj) (by omega) (by omega) (by omega)

theorem statsFold_lengths (fn : List String) (ni : List ℕ) :
    ∀ (rows : List Row) (acc : List ℚ × List ℚ × List ℕ),
      (rows.foldl (fun a r => statsRowUpdate fn r 0 ni a) acc).1.length = acc.1.length ∧
      (rows.foldl (fun a r => statsRowUpdate fn r 0 ni a) acc).2.1.length = acc.2.1.length ∧
      (rows.foldl (fun a r => statsRowUpdate fn r 0 ni a) acc).2.2.length = acc.2.2.length
  | [], _ => ⟨rfl, rfl, rfl⟩
  | r :: rows, acc => by
      rw [List.foldl_cons]
      have ih := statsFold_lengths fn ni rows (statsRowUpdate fn r 0 ni acc)
      have hl := statsRowUpdate_lengths fn r ni 0 acc
      exact ⟨ih.1.trans hl.1, ih.2.1.trans hl.2.1, ih.2.2.trans hl.2.2⟩

theorem statsFold_getD (fn : List String) (ni : List ℕ) :
    ∀ (rows : List Row) (acc : List ℚ × List ℚ × List ℕ) (pos : ℕ),
      pos < ni.length → pos < acc.1.length → pos < acc.2.1.length →
      pos < acc.2.2.length →
      (rows.foldl (fun a r => statsRowUpdate fn r 0 ni a) acc).1.getD pos 0 =
        acc.1.getD pos 0 +
          ((rows.map (fun r => r (fn.getD (ni.getD pos 0) ""))).filterMap finitePart).sum ∧
      (rows.foldl (fun a r => statsRowUpdate fn r 0 ni a) acc).2.1.getD pos 0 =
        acc.2.1.getD pos 0 +
          (((rows.map (fun r => r (fn.getD (ni.getD pos 0) ""))).filterMap
            finitePart).map (fun q => q * q)).sum ∧
      (rows.foldl (fun a r => statsRowUpdate fn r 0 ni a) acc).2.2.getD pos 0 =
        acc.2.2.getD pos 0 +
          (rows.map (fun r => r (fn.getD (ni.getD pos 0) ""))).countP
            (fun v => (finitePart v).isSome)
  | [], acc, pos, _, _, _, _ => by simp
  | r :: rows, acc, pos, hpos, h1, h2, h3 => by
      rw [List.foldl_cons]
      have hlen := statsRowUpdate_lengths fn r ni 0 acc
      have hupd := statsRowUpdate_getD_at fn r ni 0 acc pos hpos
        (by rw [Nat.zero_add]; exact h1)
        (by rw [Nat.zero_add]; exact h2)
        (by rw [Nat.zero_add]; exact h3)
      have ih := statsFold_getD fn ni rows (statsRowUpdate fn r 0 ni acc) pos hpos
        (by rw [hlen.1]; exact h1)
        (by rw [hlen.2.1]; exact h2)
        (by rw [hlen.2.2]; exact h3)
      simp only [Nat.zero_add] at hupd
      simp only [List.map_cons, List.filterMap_cons, List.countP_cons]
      cases hfp : finitePart (r (fn.getD (ni.getD pos 0) "")) with
      | some q =>
          rw [hfp] at hupd
          refine ⟨?_, ?_, ?_⟩
          · rw [ih.1, hupd.1]
            simp
            try ring
          · rw [ih.2.1, hupd.2.1]
            simp
            try ring
          · rw [ih.2.2, hupd.2.2]
            simp
            try ring
      | none =>
          rw [hfp] at hupd
          refine ⟨?_, ?_, ?_⟩
          · rw [ih.1, hupd.1]
            simp
          · rw [ih.2.1, hupd.2.1]
            simp
          · rw [ih.2.2, hupd.2.2]
            simp

theorem statsPass_lengths (fn : List String) (ni : List ℕ) (rows : List Row) :
    (statsPass fn ni rows).1.length = ni.length ∧
    (statsPass fn ni rows).2.1.length = ni.length ∧
    (statsPass fn ni rows).2.2.length = ni.length := by
  unfold statsPass
  have := statsFold_lengths fn ni rows
    (List.replicate ni.length 0, List.replicate ni.length 0, List.replicate ni.length 0)
  simpa using this

theorem statsPass_getD (fn : List String) (ni : List ℕ) (rows : List Row) (pos : ℕ)
    (hpos : pos < ni.length) :
    (statsPass fn ni rows).1.getD pos 0 =
      ((rows.map (fun r => r (fn.getD (ni.getD pos 0) ""))).filterMap finitePart).sum ∧
    (statsPass fn ni rows).2.1.getD pos 0 =
      (((rows.map (fun r => r (fn.getD (ni.getD pos 0) ""))).filterMap
        finitePart).map (fun q => q * q)).sum ∧
    (statsPass fn ni rows).2.2.getD pos 0 =
      (rows.map (fun r => r (fn.getD (ni.getD pos 0) ""))).countP
        (fun v => (finitePart v).isSome) := by
  unfold statsPass
  have := statsFold_getD fn ni rows
    (List.replicate ni.length 0, List.replicate ni.length 0, List.replicate ni.length 0)
    pos hpos (by simpa using hpos) (by simpa using hpos) (by simpa using hpos)
  simpa using this

theorem enumMap_getD {α β : Type} (l : List α) (f : ℕ × α → β) (i : ℕ) (d : β) (da : α)
    (h : i < l.length) :
    (l.enum.map f).getD i d = f (i, l.getD i da) := by
  have hlen : i < (l.enum.map f).length := by
    rw [List.length_map, List.enum_length]; exact h
  rw [List.getD_eq_getElem _ _ hlen, List.getElem_map, List.getElem_enum,
    List.getD_eq_getElem _ _ h]

theorem numericMeansOf_length (fn : List String) (ni : List ℕ) (rows : List Row) :
    (numericMeansOf fn ni rows).length = ni.length := by
  unfold numericMeansOf
  rw [List.length_map, List.enum_length]
  exact (statsPass_lengths fn ni rows).1

theorem numericMeansOf_getD (fn : List String) (ni : List ℕ) (rows : List Row) (pos : ℕ)
    (hpos : pos < ni.length) :
    (numericMeansOf fn ni rows).getD pos 0 =
      if 0 < (statsPass fn ni rows).2.2.getD pos 0 then
        (statsPass fn ni rows).1.getD pos 0 /
          (((statsPass fn ni rows).2.2.getD pos 0 : ℕ) : ℚ)
      else 0 := by
  unfold numericMeansOf
  rw [enumMap_getD _ _ _ _ 0 (by rw [(statsPass_lengths fn ni rows).1]; exact hpos)]

theorem numericStdsOf_getD (fn : List String) (ni : List ℕ) (rows : List Row) (pos : ℕ)
    (hpos : pos < ni.length) :
    (numericStdsOf fn ni rows).getD pos 1 =
      if (statsPass fn ni rows).2.2.getD pos 0 = 0 then 1
      else Real.sqrt
        (((max ((statsPass fn ni rows).2.1.getD pos 0 /
            (((statsPass fn ni rows).2.2.getD pos 0 : ℕ) : ℚ) -
            (numericMeansOf fn ni rows).getD pos 0 *
              (numericMeansOf fn ni rows).getD pos 0) varEps : ℚ) : ℝ)) := by
  unfold numericStdsOf
  rw [enumMap_getD _ _ _ _ 0 (by rw [numericMeansOf_length fn ni rows]; exact hpos)]

theorem natOfJson_roundtrip (n : ℕ) : natOfJson (.num (n : ℚ)) = some n := by
  show (if ((n : ℚ)).den = 1 ∧ 0 ≤ ((n : ℚ)).num then some ((n : ℚ)).num.toNat else none) =
    some n
  rw [if_pos ⟨Rat.den_natCast n, by simp⟩]
  simp

theorem listOfJson_roundtrip {α : Type} (g : Json → Option α) (f : α → Json)
    (hg : ∀ a, g (f a) = some a) :
    ∀ l : List α, listOfJson g (l.map f) = some l
  | [] => rfl
  | a :: as => by
      rw [List.map_cons, listOfJson, hg a, listOfJson_roundtrip g f hg as]

theorem arrOfJson_roundtrip {α : Type} (g : Json → Option α) (f : α → Json)
    (hg : ∀ a, g (f a) = some a) (l : List α) :
    arrOfJson g (.arr (l.map f)) = some l :=
  listOfJson_roundtrip g f hg l

theorem strList_roundtrip (l : List String) :
    arrOfJson strOfJson (.arr (l.map .str)) = some l :=
  arrOfJson_roundtrip strOfJson Json.str (fun _ => rfl) l

theorem natList_roundtrip (l : List ℕ) :
    arrOfJson natOfJson (.arr (l.map (fun (k : ℕ) => Json.num (k : ℚ)))) = some l :=
  arrOfJson_roundtrip natOfJson (fun (k : ℕ) => Json.num (k : ℚ)) natOfJson_roundtrip l

theorem ratList_roundtrip (l : List ℚ) :
    arrOfJson ratOfJson (.arr (l.map .num)) = some l :=
  arrOfJson_roundtrip ratOfJson Json.num (fun _ => rfl) l

theorem vocab_roundtrip (v : List (String × List String)) :
    vocabOfJson (vocabToJson v) = some v := by
  rw [vocabToJson, vocabOfJson]
  induction v with
  | nil => rfl
  | cons p ps ih =>
      rw [List.map_cons, vocabFieldsOfJson]
      simp only [strList_roundtrip p.2]
      rw [show vocabFieldsOfJson (ps.map (fun p => (p.1, Json.arr (p.2.map .str)))) =
        some ps from ih]

theorem offsetEntry_roundtrip (e : ℕ × ℕ) :
    offsetEntryOfJson (.obj [("offset", .num (e.1 : ℚ)), ("size", .num (e.2 : ℚ))]) =
      some e := by
  simp [offsetEntryOfJson, jsonLookup, lookupAssoc, natOfJson_roundtrip]

theorem offsets_roundtrip (o : List (String × (ℕ × ℕ))) :
    offsetsOfJson (offsetsToJson o) = some o := by
  rw [offsetsToJson, offsetsOfJson]
  induction o with
  | nil => rfl
  | cons p ps ih =>
      rw [List.map_cons, offsetFieldsOfJson]
      simp only [offsetEntry_roundtrip p.2]
      rw [show offsetFieldsOfJson (ps.map (fun p =>
        (p.1, Json.obj [("offset", .num (p.2.1 : ℚ)), ("size", .num (p.2.2 : ℚ))]))) =
        some ps from ih]

theorem stdGuard_ne_zero (std0 : ℚ) : (if 0 < std0 then std0 else 1) ≠ 0 := by
  by_cases h : 0 < std0
  · rw [if_pos h]; exact ne_of_gt h
  · rw [if_neg h]; norm_num

theorem jsub_fin_fin (a b : ℚ) : JNum.jsub (.fin a) (.fin b) = .fin (a - b) := rfl

theorem jdiv_fin_fin (a b : ℚ) (hb : b ≠ 0) : JNum.jdiv (.fin a) (.fin b) = .fin (a / b) := by
  show (if b = 0 then (if a = 0 then JNum.nan else if 0 < a then JNum.inf else JNum.ninf)
    else JNum.fin (a / b)) = JNum.fin (a / b)
  rw [if_neg hb]

theorem trainSlotVal_eq (A : Artifact) (xs : Row) (pos c : ℕ) :
    trainSlotVal A xs pos c =
      .fin (((match finitePart (xs (A.featName c)) with
              | some q => q
              | none => A.numericMeans.getD pos 0) - A.numericMeans.getD pos 0) /
            (if 0 < A.numericStds.getD pos 0 then A.numericStds.getD pos 0 else 1)) := by
  simp only [trainSlotVal]
  cases h : finitePart (xs (A.featName c)) <;>
    simp [jsub_fin_fin, jdiv_fin_fin _ _ (stdGuard_ne_zero _)]

theorem trainSlotVal_isFin (A : Artifact) (xs : Row) (pos c : ℕ) :
    (trainSlotVal A xs pos c).isFin = true := by
  rw [trainSlotVal_eq]; rfl

theorem predSlotVal_isFin (A : Artifact) (xs : Row) (pos c : ℕ) :
    (predSlotVal A xs pos c).isFin = true := by
  simp only [predSlotVal]
  cases h : finitePart (xs (A.featName c)) <;> rfl

theorem numericPassTrain_mem (A : Artifact) (xs : Row) (P : JNum → Prop)
    (hP : ∀ pos c, P (trainSlotVal A xs pos c)) :
    ∀ (l : List ℕ) (pos : ℕ) (vec : List JNum), (∀ x ∈ vec, P x) →
      ∀ x ∈ numericPassTrain A xs pos l vec, P x
  | [], _, _, hvec, x, hx => hvec x hx
  | c :: rest, pos, vec, hvec, x, hx => by
      rw [numericPassTrain] at hx
      refine numericPassTrain_mem A xs P hP rest (pos + 1) _ ?_ x hx
      intro y hy
      rcases List.mem_or_eq_of_mem_set hy with h | h
      · exact hvec y h
      · exact h ▸ hP pos c

theorem numericPassPred_mem (A : Artifact) (xs : Row) (P : JNum → Prop)
    (hP : ∀ pos c, P (predSlotVal A xs pos c)) :
    ∀ (l : List ℕ) (pos : ℕ) (vec : List JNum), (∀ x ∈ vec, P x) →
      ∀ x ∈ numericPassPred A xs pos l vec, P x
  | [], _, _, hvec, x, hx => hvec x hx
  | c :: rest, pos, vec, hvec, x, hx => by
      rw [numericPassPred] at hx
      refine numericPassPred_mem A xs P hP rest (pos + 1) _ ?_ x hx
      intro y hy
      rcases List.mem_or_eq_of_mem_set hy with h | h
      · exact hvec y h
      · exact h ▸ hP pos c

theorem oneHotFold_mem (A : Artifact) (xs : Row) (P : JNum → Prop) (h1 : P (.fin 1)) :
    ∀ (l : List ℕ) (vec : List JNum), (∀ x ∈ vec, P x) →
      ∀ x ∈ l.foldl (fun v i =>
          match oneHotWritePos A xs i with
          | some p => v.set p (.fin 1)
          | none => v) vec, P x
  | [], _, hvec, x, hx => hvec x hx
  | i :: rest, vec, hvec, x, hx => by
      rw [List.foldl_cons] at hx
      cases hw : oneHotWritePos A xs i with
      | some p =>
          rw [hw] at hx
          refine oneHotFold_mem A xs P h1 rest _ ?_ x hx
          intro y hy
          rcases List.mem_or_eq_of_mem_set hy with h | h
          · exact hvec y h
          · exact h ▸ h1
      | none =>
          rw [hw] at hx
          exact oneHotFold_mem A xs P h1 rest vec hvec x hx

theorem oneHotPass_mem (A : Artifact) (xs : Row) (P : JNum → Prop) (h1 : P (.fin 1))
    (vec : List JNum) (hvec : ∀ x ∈ vec, P x) :
    ∀ x ∈ oneHotPass A xs vec, P x :=
  oneHotFold_mem A xs P h1 A.stringIndices vec hvec

theorem blockOffsetAt_ge (A : Artifact) (k : ℕ) :
    A.numericIndices.length ≤ blockOffsetAt A k := by
  unfold blockOffsetAt
  omega

/-! ## Claim theorems -/

/-- C5: for every categorical feature the finalised vocabulary is the
lexicographically sorted, duplicate-free sequence of the distinct normalised
tokens observed over the rows with the sentinel always included; each token's
index (the token → index map) equals its position in that sequence; and
building the vocabulary from any two permutations of the same row multiset
yields identical sequences. -/
theorem C5_vocabulary (vals : List RawValue) :
    (buildVocab vals).Sorted (· ≤ ·) ∧
    (buildVocab vals).Nodup ∧
    "__MISSING__" ∈ buildVocab vals ∧
    (∀ t, t ∈ buildVocab vals ↔ t = "__MISSING__" ∨ ∃ v ∈ vals, normalizeTok v = t) ∧
    (∀ i (h : i < (buildVocab vals).length),
      tokenIndex (buildVocab vals) ((buildVocab vals).get ⟨i, h⟩) = some i) ∧
    (∀ vals', List.Perm vals vals' → buildVocab vals = buildVocab vals') :=
  ⟨buildVocab_sorted vals, buildVocab_nodup vals,
   (buildVocab_mem vals _).mpr (Or.inl rfl),
   fun t => buildVocab_mem vals t,
   fun i h => tokenIndex_get_self (buildVocab_nodup vals) i h,
   fun _ h => buildVocab_eq_of_perm h⟩

/-- C5 witness: two permutations of the same concrete column produce the same
vocabulary, instantiating the determinism clause of `C5_vocabulary`. -/
theorem C5_witness : buildVocab exampleValsC5 = buildVocab exampleValsC5p :=
  (C5_vocabulary exampleValsC5).2.2.2.2.2 exampleValsC5p (by decide)

/-- C6: the layout plan starts categorical blocks at the numeric feature
count (reserving slots [0, numericCount) for numeric features in schema
order), assigns each string feature in schema order a block whose offset is
the numeric count plus the sizes of all earlier blocks and whose size is its
vocabulary length, makes blocks pairwise non-overlapping, and sets
totalDim = numericCount + sum of vocabulary sizes. -/
theorem C6_layout (fn : List String) (ni si : List ℕ)
    (vb : List (String × List String)) :
    (buildLayout fn ni si vb).2 = ni.length + (si.map (sizeAt fn vb)).sum ∧
    (buildLayout fn ni si vb).1.length = si.length ∧
    (∀ k, k < si.length →
      (buildLayout fn ni si vb).1.getD k default =
        (fn.getD (si.getD k 0) "",
         (ni.length + ((si.take k).map (sizeAt fn vb)).sum, sizeAt fn vb (si.getD k 0)))) ∧
    (∀ k, k < si.length →
      ni.length ≤ ((buildLayout fn ni si vb).1.getD k default).2.1) ∧
    (∀ k k', k < k' → k' < si.length →
      ((buildLayout fn ni si vb).1.getD k default).2.1 +
        ((buildLayout fn ni si vb).1.getD k default).2.2 ≤
        ((buildLayout fn ni si vb).1.getD k' default).2.1) := by
  refine ⟨layoutAux_snd fn vb si ni.length, layoutAux_length fn vb si ni.length,
    fun k hk => layoutAux_getD fn vb si ni.length k hk, ?_, ?_⟩
  · intro k hk
    rw [buildLayout, layoutAux_getD fn vb si ni.length k hk]
    exact Nat.le_add_right _ _
  · intro k k' hkk hk'
    have hk : k < si.length := Nat.lt_trans hkk hk'
    rw [buildLayout, layoutAux_getD fn vb si ni.length k hk,
      layoutAux_getD fn vb si ni.length k' hk']
    have h1 := sum_map_take_succ (sizeAt fn vb) si k hk
    have h2 : ((si.take (k + 1)).map (sizeAt fn vb)).sum ≤
        ((si.take k').map (sizeAt fn vb)).sum := by
      have h3 := sum_take_le ((si.take k').map (sizeAt fn vb)) (k + 1)
      rwa [← List.map_take, List.take_take, min_eq_left (by omega)] at h3
    simp only
    omega

/-- C6 witness: the concrete two-feature schema gets the block (offset 1,
size 3) for its single categorical feature. -/
theorem C6_witness :
    (buildLayout ["Age", "HomePlanet"] [0] [1]
      [("HomePlanet", ["Earth", "Mars", "__MISSING__"])]).1.getD 0 default =
      ("HomePlanet", (1, 3)) :=
  (C6_layout ["Age", "HomePlanet"] [0] [1]
    [("HomePlanet", ["Earth", "Mars", "__MISSING__"])]).2.2.1 0 (by decide)

/-- C7: persisting the artifact assembled at the end of training and loading
it back at inference yields a record equal field-for-field to the original,
with exact numeric statistics and the vocabulary sequences in the same
order. -/
theorem C7_artifact_roundtrip (A : Artifact) :
    artifactOfJson (artifactToJson A) = some A := by
  obtain ⟨fn, ni, si, nm, ns, vb, oh, td⟩ := A
  simp [artifactToJson, artifactOfJson, jsonLookup, lookupAssoc,
    strList_roundtrip, natList_roundtrip, ratList_roundtrip, vocab_roundtrip,
    offsets_roundtrip, natOfJson_roundtrip]

/-- C9: the inference run warns exactly when the artifact's totalDim differs
from the model's input width; on mismatch it proceeds by truncating the
trailing columns (artifact wider) or zero-padding on the right (artifact
narrower), every row ends up with the model's width, and nothing is adjusted
when no warning is emitted. -/
theorem C9_dim_mismatch (totalDim modelInputDim : ℕ) (rows : List (List JNum)) :
    ((runDimAdjust totalDim modelInputDim rows).1 = true ↔ modelInputDim ≠ totalDim) ∧
    (modelInputDim = totalDim → (runDimAdjust totalDim modelInputDim rows).2 = rows) ∧
    (modelInputDim < totalDim →
      (runDimAdjust totalDim modelInputDim rows).2 =
        rows.map (fun r => r.take modelInputDim)) ∧
    (totalDim < modelInputDim →
      (runDimAdjust totalDim modelInputDim rows).2 =
        rows.map (fun r => r ++ List.replicate (modelInputDim - totalDim) (.fin 0))) ∧
    ((runDimAdjust totalDim modelInputDim rows).1 = false →
      (runDimAdjust totalDim modelInputDim rows).2 = rows) ∧
    ((∀ r ∈ rows, r.length = totalDim) →
      ∀ r' ∈ (runDimAdjust totalDim modelInputDim rows).2, r'.length = modelInputDim) := by
  unfold runDimAdjust dimMismatchWarn adjustFeatures
  refine ⟨by simp, ?_, ?_, ?_, ?_, ?_⟩
  · intro h
    rw [if_neg (by omega)]
  · intro h
    rw [if_pos (by omega), if_pos h]
  · intro h
    rw [if_pos (by omega), if_neg (by omega)]
  · intro h
    simp only [decide_eq_false_iff_not, Decidable.not_not] at h
    rw [if_neg (by omega)]
  · intro hlen r' hr'
    by_cases hne : modelInputDim = totalDim
    · rw [if_neg (by omega)] at hr'
      rw [hlen r' hr', hne]
    · rw [if_pos (by omega)] at hr'
      by_cases hlt : modelInputDim < totalDim
      · rw [if_pos hlt] at hr'
        obtain ⟨r, hr, hrr⟩ := List.mem_map.mp hr'
        rw [← hrr, List.length_take, hlen r hr]
        omega
      · rw [if_neg hlt] at hr'
        obtain ⟨r, hr, hrr⟩ := List.mem_map.mp hr'
        rw [← hrr, List.length_append, List.length_replicate, hlen r hr]
        omega

/-- C9 witness: with totalDim 3 and model width 2, the single row is
truncated to its first two columns. -/
theorem C9_witness :
    (runDimAdjust 3 2 exampleMatrixC9).2 =
      exampleMatrixC9.map (fun r => r.take 2) :=
  (C9_dim_mismatch 3 2 exampleMatrixC9).2.2.1 (by omega)

/-- C8 counterexample: boolean false is not one of the truthy forms, yet the
strict label encoder returns 0 — a member of {0,1} — rather than the NaN
sentinel the claim ascribes to every non-truthy value. -/
theorem C8_counterexample :
    ¬(RawValue.bool false = .bool true ∨ RawValue.bool false = .str "True" ∨
      RawValue.bool false = .str "true" ∨ RawValue.bool false = .num (.fin 1)) ∧
    encodeLabel (.bool false) = 0 ∧
    encodeLabelStrict (.bool false) = .fin 0 ∧
    JNum.fin 0 ≠ JNum.nan := by
  refine ⟨by decide, rfl, rfl, by decide⟩

/-- C8 (amended): both label encoders return 1 exactly on the recognised
truthy forms (boolean true, numeric 1, the strings 'True' and 'true'); for
every other value the lenient variant returns 0, while the strict variant
returns 0 on the recognised falsy forms (boolean false, numeric 0, 'False',
'false') and the NaN sentinel on everything else. -/
theorem C8_label_encoders (v : RawValue) :
    (encodeLabel v = 1 ↔
      (v = .bool true ∨ v = .str "True" ∨ v = .str "true" ∨ v = .num (.fin 1))) ∧
    (encodeLabel v = 0 ↔
      ¬(v = .bool true ∨ v = .str "True" ∨ v = .str "true" ∨ v = .num (.fin 1))) ∧
    (encodeLabelStrict v = .fin 1 ↔
      (v = .bool true ∨ v = .str "True" ∨ v = .str "true" ∨ v = .num (.fin 1))) ∧
    (encodeLabelStrict v = .fin 0 ↔
      (¬(v = .bool true ∨ v = .str "True" ∨ v = .str "true" ∨ v = .num (.fin 1)) ∧
       (v = .bool false ∨ v = .str "False" ∨ v = .str "false" ∨ v = .num (.fin 0)))) ∧
    (¬(v = .bool true ∨ v = .str "True" ∨ v = .str "true" ∨ v = .num (.fin 1)) →
     ¬(v = .bool false ∨ v = .str "False" ∨ v = .str "false" ∨ v = .num (.fin 0)) →
     encodeLabelStrict v = .nan) := by
  unfold encodeLabel encodeLabelStrict
  by_cases ht : v = .bool true ∨ v = .str "True" ∨ v = .str "true" ∨ v = .num (.fin 1)
  · simp only [if_pos ht]
    refine ⟨by simp [ht], by simp [ht], by simp [ht], ?_, fun h _ => absurd ht h⟩
    constructor
    · intro h
      exact absurd (JNum.fin.inj h) one_ne_zero
    · rintro ⟨h, _⟩
      exact absurd ht h
  · simp only [if_neg ht]
    by_cases hf : v = .bool false ∨ v = .str "False" ∨ v = .str "false" ∨ v = .num (.fin 0)
    · simp only [if_pos hf]
      refine ⟨by simp [ht], by simp [ht], ?_, by simp [ht, hf], fun _ h => absurd hf h⟩
      constructor
      · intro h
        exact absurd (JNum.fin.inj h).symm one_ne_zero
      · intro h
        exact absurd h ht
    · simp only [if_neg hf]
      refine ⟨by simp [ht], by simp [ht], ?_, ?_, by simp⟩
      · constructor
        · intro h
          exact JNum.noConfusion h
        · intro h
          exact absurd h ht
      · constructor
        · intro h
          exact JNum.noConfusion h
        · rintro ⟨_, h⟩
          exact absurd h hf

/-- C8 witness: an unrecognised label string maps to the NaN sentinel in the
strict variant. -/
theorem C8_witness : encodeLabelStrict (.str "maybe") = .nan :=
  (C8_label_encoders (.str "maybe")).2.2.2.2 (by decide) (by decide)

/-- C10: every component of every encoded vector is a finite number for every
raw record and artifact (non-finite numeric inputs are replaced before any
arithmetic and the standardisation divisor is never 0), and under the layout
the training pipeline builds, every cell in a categorical block is 0 or 1 —
encoding never produces NaN or Infinity. -/
theorem C10_encoded_finite (A : Artifact) (xs : Row) :
    (∀ x ∈ encodeRowTrain A xs, x.isFin = true) ∧
    (∀ x ∈ encodeRow A xs, x.isFin = true) ∧
    (A.WellFormed → ∀ q, A.numericIndices.length ≤ q → q < A.totalDim →
      ((encodeRowTrain A xs).getD q (.fin 0) = .fin 0 ∨
       (encodeRowTrain A xs).getD q (.fin 0) = .fin 1) ∧
      ((encodeRow A xs).getD q (.fin 0) = .fin 0 ∨
       (encodeRow A xs).getD q (.fin 0) = .fin 1)) := by
  refine ⟨?_, ?_, ?_⟩
  · rw [encodeRowTrain]
    refine oneHotPass_mem A xs (fun x => x.isFin = true) rfl _ ?_
    refine numericPassTrain_mem A xs (fun x => x.isFin = true)
      (fun pos c => trainSlotVal_isFin A xs pos c) A.numericIndices 0 _ ?_
    intro x hx
    rw [List.eq_of_mem_replicate hx]
    rfl
  · rw [encodeRow]
    refine oneHotPass_mem A xs (fun x => x.isFin = true) rfl _ ?_
    refine numericPassPred_mem A xs (fun x => x.isFin = true)
      (fun pos c => predSlotVal_isFin A xs pos c) A.numericIndices 0 _ ?_
    intro x hx
    rw [List.eq_of_mem_replicate hx]
    rfl
  · intro hwf q hq hqt
    constructor
    · rw [encodeRowTrain, oneHotPass_getD A xs _ q (.fin 0) (by rw [trainBase_length]; omega)]
      by_cases hex : ∃ i ∈ A.stringIndices, oneHotWritePos A xs i = some q
      · rw [if_pos hex]
        exact Or.inr rfl
      · rw [if_neg hex]
        exact Or.inl (trainBase_getD_zero A xs q hq hqt)
    · rw [encodeRow, oneHotPass_getD A xs _ q (.fin 0) (by rw [predBase_length]; omega)]
      by_cases hex : ∃ i ∈ A.stringIndices, oneHotWritePos A xs i = some q
      · rw [if_pos hex]
        exact Or.inr rfl
      · rw [if_neg hex]
        exact Or.inl (predBase_getD_zero A xs q hq hqt)

/-- C10 witness: on the concrete two-feature artifact and record, the cell at
index 1 (the first categorical cell) of both encoded vectors is 0 or 1. -/
theorem C10_witness :
    ((encodeRowTrain exampleArtifact exampleRow).getD 1 (.fin 0) = .fin 0 ∨
     (encodeRowTrain exampleArtifact exampleRow).getD 1 (.fin 0) = .fin 1) ∧
    ((encodeRow exampleArtifact exampleRow).getD 1 (.fin 0) = .fin 0 ∨
     (encodeRow exampleArtifact exampleRow).getD 1 (.fin 0) = .fin 1) :=
  (C10_encoded_finite exampleArtifact exampleRow).2.2 (by decide) 1 (by decide) (by decide)

/-- C3: for every record and every categorical feature with layout block
(offset, size) in a well-formed artifact (vocabulary duplicate-free with the
sentinel present, offsets from the layout planner), the encoded vector —
whether built by the training row map or by the inference `encodeRow` —
carries exactly one 1 inside [offset, offset + size) and 0 at every other
cell of that block, for every input including missing and unseen tokens. -/
theorem C3_one_hot_block (A : Artifact) (xs : Row) (k offset size : ℕ)
    (hwf : A.WellFormed) (hk : k < A.stringIndices.length)
    (hoff : lookupAssoc A.oneHotOffsets (A.featName (A.stringIndices.getD k 0)) =
      some (offset, size)) :
    (∃ j, j < size ∧
      (encodeRowTrain A xs).getD (offset + j) (.fin 0) = .fin 1 ∧
      ∀ j', j' < size → j' ≠ j →
        (encodeRowTrain A xs).getD (offset + j') (.fin 0) = .fin 0) ∧
    (∃ j, j < size ∧
      (encodeRow A xs).getD (offset + j) (.fin 0) = .fin 1 ∧
      ∀ j', j' < size → j' ≠ j →
        (encodeRow A xs).getD (offset + j') (.fin 0) = .fin 0) := by
  have hpair := Option.some.inj (hoff.symm.trans (wf_offsets_lookup A hwf k hk))
  have ho : offset = blockOffsetAt A k := congrArg Prod.fst hpair
  have hsz : size = blockSizeAt A k := congrArg Prod.snd hpair
  subst ho hsz
  constructor
  · rw [encodeRowTrain]
    obtain ⟨j, hj, h1, h2⟩ := oneHot_block A xs _ hwf (trainBase_length A xs) hk
    refine ⟨j, hj, h1, fun j' hj' hne => ?_⟩
    rw [h2 j' hj' hne]
    refine trainBase_getD_zero A xs _ ?_ ?_
    · have := blockOffsetAt_ge A k; omega
    · have := block_le_totalDim A hwf hk; omega
  · rw [encodeRow]
    obtain ⟨j, hj, h1, h2⟩ := oneHot_block A xs _ hwf (predBase_length A xs) hk
    refine ⟨j, hj, h1, fun j' hj' hne => ?_⟩
    rw [h2 j' hj' hne]
    refine predBase_getD_zero A xs _ ?_ ?_
    · have := blockOffsetAt_ge A k; omega
    · have := block_le_totalDim A hwf hk; omega

/-- C3 witness: on the concrete artifact with block (offset 1, size 3) for
HomePlanet, both encoders set exactly one cell of the block. -/
theorem C3_witness :
    (∃ j, j < 3 ∧
      (encodeRowTrain exampleArtifact exampleRow).getD (1 + j) (.fin 0) = .fin 1 ∧
      ∀ j', j' < 3 → j' ≠ j →
        (encodeRowTrain exampleArtifact exampleRow).getD (1 + j') (.fin 0) = .fin 0) ∧
    (∃ j, j < 3 ∧
      (encodeRow exampleArtifact exampleRow).getD (1 + j) (.fin 0) = .fin 1 ∧
      ∀ j', j' < 3 → j' ≠ j →
        (encodeRow exampleArtifact exampleRow).getD (1 + j') (.fin 0) = .fin 0) :=
  C3_one_hot_block exampleArtifact exampleRow 0 1 3 (by decide) (by decide) (by decide)

/-- C2 counterexample: the statistics pass over a fully missing column
observes count 0 (mean 0, std 1), yet encoding a record whose raw value is
the finite number 5 writes 5 — not 0 — at that feature's slot, in both the
training row map and the inference `encodeRow`. -/
theorem C2_counterexample :
    (statsPass ["x"] [0] exampleRowsC2).2.2.getD 0 0 = 0 ∧
    numericMeansOf ["x"] [0] exampleRowsC2 = [0] ∧
    (encodeRowTrain exampleArtifactC2 exampleRowC2).getD 0 (.fin 0) = .fin 5 ∧
    (encodeRow exampleArtifactC2 exampleRowC2).getD 0 (.fin 0) = .fin 5 ∧
    JNum.fin 5 ≠ JNum.fin 0 := by
  refine ⟨?_, ?_, ?_, ?_, by decide⟩
  · norm_num [statsPass, statsRowUpdate, exampleRowsC2, finitePart]
  · norm_num [numericMeansOf, statsPass, statsRowUpdate, exampleRowsC2, finitePart,
      List.enum]
  · norm_num [encodeRowTrain, exampleArtifactC2, exampleRowC2, oneHotPass,
      numericPassTrain, trainSlotVal, Artifact.featName, finitePart,
      JNum.jsub, JNum.jdiv]
  · norm_num [encodeRow, exampleArtifactC2, exampleRowC2, oneHotPass,
      numericPassPred, predSlotVal, Artifact.featName, finitePart]

/-- C2 (amended): for a numeric feature whose statistics are the count = 0
fallback (mean 0, std 1), encoding writes 0 at that feature's slot for every
record whose raw value is missing or non-finite; a finite raw value v is
written through as (v - 0)/1 = v instead. -/
theorem C2_missing_slot_zero (A : Artifact) (xs : Row) (pos : ℕ)
    (hwf : A.WellFormed) (hpos : pos < A.numericIndices.length)
    (hm : A.numericMeans.getD pos 0 = 0) (hs : A.numericStds.getD pos 0 = 1)
    (hv : finitePart (xs (A.featName (A.numericIndices.getD pos 0))) = none) :
    (encodeRowTrain A xs).getD pos (.fin 0) = .fin 0 ∧
    (encodeRow A xs).getD pos (.fin 0) = .fin 0 := by
  have htd : A.numericIndices.length ≤ A.totalDim := by
    rw [wf_totalDim A hwf]; omega
  have hnostring : ¬∃ i ∈ A.stringIndices, oneHotWritePos A xs i = some pos := by
    rintro ⟨i, hi, hw⟩
    obtain ⟨k, hk, hget⟩ := List.mem_iff_getElem.mp hi
    have hgetD : A.stringIndices.getD k 0 = i := by
      rw [List.getD_eq_getElem _ _ hk]; exact hget
    rw [← hgetD] at hw
    have hb := wf_write_in_block A xs hwf hk hw
    have hge := blockOffsetAt_ge A k
    omega
  constructor
  · rw [encodeRowTrain,
      oneHotPass_getD A xs _ pos (.fin 0) (by rw [trainBase_length]; omega),
      if_neg hnostring]
    have hat := numericPassTrain_getD_at A xs A.numericIndices 0
      (List.replicate A.totalDim (.fin 0)) pos (.fin 0) hpos
      (by rw [List.length_replicate]; omega)
    simp only [Nat.zero_add] at hat
    rw [hat, trainSlotVal_eq, hv, hm, hs]
    norm_num
  · rw [encodeRow,
      oneHotPass_getD A xs _ pos (.fin 0) (by rw [predBase_length]; omega),
      if_neg hnostring]
    have hat := numericPassPred_getD_at A xs A.numericIndices 0
      (List.replicate A.totalDim (.fin 0)) pos (.fin 0) hpos
      (by rw [List.length_replicate]; omega)
    simp only [Nat.zero_add] at hat
    rw [hat]
    simp only [predSlotVal, hv, hm]

/-- C2 witness: on the count = 0 artifact and an all-missing record, both
encoders write 0 at the numeric slot. -/
theorem C2_witness :
    (encodeRowTrain exampleArtifactC2 exampleRowMissing).getD 0 (.fin 0) = .fin 0 ∧
    (encodeRow exampleArtifactC2 exampleRowMissing).getD 0 (.fin 0) = .fin 0 :=
  C2_missing_slot_zero exampleArtifactC2 exampleRowMissing 0 (by decide) (by decide)
    rfl rfl rfl

/-- C1: the spec requires the training-batch row encoder and the inference
`encodeRow` to compute the identical function on every record given the same
artifact, and prediction.js even labels its encoder "mirrors training" — but
the code diverges: on the artifact training produces from the column
{-2, 2} (mean 0, std 2) and the record x = 1, the training map standardises
to (1 - 0)/2 = 1/2 while `encodeRow`, which never standardises (and never
reads numericStds), yields 1. -/
theorem C1_encoder_divergence :
    numericMeansOf ["x"] [0] exampleRowsC1 = [0] ∧
    (numericStdsOf ["x"] [0] exampleRowsC1).getD 0 1 = 2 ∧
    encodeRowTrain exampleArtifactC1 exampleRowC1 = [.fin (1/2)] ∧
    encodeRow exampleArtifactC1 exampleRowC1 = [.fin 1] ∧
    encodeRowTrain exampleArtifactC1 exampleRowC1 ≠
      encodeRow exampleArtifactC1 exampleRowC1 := by
  have hstats : statsPass ["x"] [0] exampleRowsC1 = ([0], [8], [2]) := by
    norm_num [statsPass, statsRowUpdate, exampleRowsC1, finitePart]
  have hmeans : numericMeansOf ["x"] [0] exampleRowsC1 = [0] := by
    norm_num [numericMeansOf, hstats, List.enum]
  have htrain : encodeRowTrain exampleArtifactC1 exampleRowC1 = [.fin (1/2)] := by
    norm_num [encodeRowTrain, exampleArtifactC1, exampleRowC1, oneHotPass,
      numericPassTrain, trainSlotVal, Artifact.featName, finitePart,
      JNum.jsub, JNum.jdiv]
  have hpred : encodeRow exampleArtifactC1 exampleRowC1 = [.fin 1] := by
    norm_num [encodeRow, exampleArtifactC1, exampleRowC1, oneHotPass,
      numericPassPred, predSlotVal, Artifact.featName, finitePart]
  refine ⟨hmeans, ?_, htrain, hpred, ?_⟩
  · rw [numericStdsOf_getD ["x"] [0] exampleRowsC1 0 (by decide), hstats, hmeans]
    norm_num
    rw [max_eq_left (by norm_num [varEps] : ((varEps : ℚ) : ℝ) ≤ 4)]
    rw [show (4 : ℝ) = 2 ^ 2 by norm_num, Real.sqrt_sq (by norm_num : (0:ℝ) ≤ 2)]
  · rw [htrain, hpred]
    intro h
    have := List.head_eq_of_cons_eq h
    exact absurd (JNum.fin.inj this) (by norm_num)

/-- C4 (amended): after the single streaming pass — which accumulates Σx, Σx²
and count over exactly the values that are finite numbers — the mean is
Σx/count (0 when count = 0), the standard deviation is
sqrt(max(Σx²/count − mean², 1e-12)) when count > 0 and exactly 1 when
count = 0, and the standard deviation is strictly positive for every
feature.  (The claim's converse — std = 1 only when count = 0 — is refuted by
`C4_counterexample`.) -/
theorem C4_stats (fn : List String) (ni : List ℕ) (rows : List Row) (pos : ℕ)
    (hpos : pos < ni.length) :
    (statsPass fn ni rows).2.2.getD pos 0 =
      (rows.map (fun r => r (fn.getD (ni.getD pos 0) ""))).countP isFiniteNum ∧
    (statsPass fn ni rows).1.getD pos 0 =
      ((rows.map (fun r => r (fn.getD (ni.getD pos 0) ""))).filterMap finitePart).sum ∧
    (statsPass fn ni rows).2.1.getD pos 0 =
      (((rows.map (fun r => r (fn.getD (ni.getD pos 0) ""))).filterMap
        finitePart).map (fun q => q * q)).sum ∧
    (numericMeansOf fn ni rows).getD pos 0 =
      (if 0 < (statsPass fn ni rows).2.2.getD pos 0 then
        (statsPass fn ni rows).1.getD pos 0 /
          (((statsPass fn ni rows).2.2.getD pos 0 : ℕ) : ℚ)
      else 0) ∧
    ((statsPass fn ni rows).2.2.getD pos 0 = 0 →
      (numericStdsOf fn ni rows).getD pos 1 = 1) ∧
    (0 < (statsPass fn ni rows).2.2.getD pos 0 →
      (numericStdsOf fn ni rows).getD pos 1 =
        Real.sqrt
          (((max ((statsPass fn ni rows).2.1.getD pos 0 /
              (((statsPass fn ni rows).2.2.getD pos 0 : ℕ) : ℚ) -
              (numericMeansOf fn ni rows).getD pos 0 *
                (numericMeansOf fn ni rows).getD pos 0) varEps : ℚ) : ℝ))) ∧
    0 < (numericStdsOf fn ni rows).getD pos 1 := by
  obtain ⟨hsum, hsumsq, hcnt⟩ := statsPass_getD fn ni rows pos hpos
  have hpred : (fun v => (finitePart v).isSome) = isFiniteNum :=
    funext fun v => (isFiniteNum_eq_isSome v).symm
  refine ⟨by rw [hcnt, hpred], hsum, hsumsq,
    numericMeansOf_getD fn ni rows pos hpos, ?_, ?_, ?_⟩
  · intro h
    rw [numericStdsOf_getD fn ni rows pos hpos, if_pos h]
  · intro h
    rw [numericStdsOf_getD fn ni rows pos hpos, if_neg (Nat.pos_iff_ne_zero.mp h)]
  · rw [numericStdsOf_getD fn ni rows pos hpos]
    by_cases h : (statsPass fn ni rows).2.2.getD pos 0 = 0
    · rw [if_pos h]
      norm_num
    · rw [if_neg h]
      refine Real.sqrt_pos.mpr ?_
      have hq : (0 : ℚ) < max ((statsPass fn ni rows).2.1.getD pos 0 /
          (((statsPass fn ni rows).2.2.getD pos 0 : ℕ) : ℚ) -
          (numericMeansOf fn ni rows).getD pos 0 *
            (numericMeansOf fn ni rows).getD pos 0) varEps :=
        lt_of_lt_of_le (show (0 : ℚ) < varEps by norm_num [varEps])
          (le_max_right _ _)
      exact_mod_cast hq

/-- C4 counterexample: over the column {0, 2} the pass observes count = 2,
mean 1 and variance exactly 1, so the standard deviation is exactly 1 with a
nonzero count — refuting "std = 1 exactly when count = 0" read as an
equivalence. -/
theorem C4_counterexample :
    (statsPass ["x"] [0] exampleRowsC4).2.2.getD 0 0 ≠ 0 ∧
    (numericStdsOf ["x"] [0] exampleRowsC4).getD 0 1 = 1 := by
  have hstats : statsPass ["x"] [0] exampleRowsC4 = ([2], [4], [2]) := by
    norm_num [statsPass, statsRowUpdate, exampleRowsC4, finitePart]
  have hmeans : numericMeansOf ["x"] [0] exampleRowsC4 = [1] := by
    norm_num [numericMeansOf, hstats, List.enum]
  constructor
  · rw [hstats]
    norm_num
  · rw [numericStdsOf_getD ["x"] [0] exampleRowsC4 0 (by decide), hstats, hmeans]
    norm_num
    norm_num [varEps]

/-- C4 witness: the derived standard deviation over the column {0, 2} is
strictly positive, instantiating the positivity clause of `C4_stats`. -/
theorem C4_witness : 0 < (numericStdsOf ["x"] [0] exampleRowsC4).getD 0 1 :=
  (C4_stats ["x"] [0] exampleRowsC4 0 (by decide)).2.2.2.2.2.2
